import Mathlib

/-!
# The `84` Markdown editor: cursor addressing and structured edits

A shallow embedding of `src/84.go` and the properties of its offset/position
translator (`getCursorPosition`, `setCursorPosition`), of its structured edit
shortcuts, of its search and of its mode state machine, as handled by
`model.Update`, and of the path `InitialModel` stores.

Conventions of the embedding.

* A Go `string` that holds valid UTF-8 is a `List Char` (its runes); `len` is
  the number of bytes of its encoding, as Go's `len` is.
* Go `int` is `Int`.  Every quantity the program computes is bounded by the
  byte length of the buffer plus one, or is a difference `pos - cursorPos`
  with `0 ≤ cursorPos` and `cursorPos = 0` whenever `pos < 0`, so 64-bit
  wrap-around cannot occur.
* An index expression `lines[i]` that would panic makes the function
  return `none`.
* The widgets of the `bubbles` library, the Markdown renderer and the file
  system are external collaborators; what the program needs of them is
  either modelled from their contract or taken from a `World` record.
-/

namespace Editor

/-! ## Go strings -/

/-- Go `len(s)`: the byte length of the UTF-8 encoding of `s`. -/
def len : List Char → Nat
  | [] => 0
  | c :: t => c.utf8Size + len t

/-- The newline rune, the separator of `strings.Split(content, "\n")`. -/
def nl : Char := Char.ofNat 10

/-- Go `strings.Split(s, "\n")`: the pieces of `s` between newlines; the
result always has at least one element. -/
def split : List Char → List (List Char)
  | [] => [[]]
  | c :: t =>
    if c = nl then [] :: split t
    else
      match split t with
      | [] => [[c]]
      | h :: r => (c :: h) :: r

/-- Go `strings.HasPrefix(s, p)`. -/
def HasPrefix (s p : List Char) : Bool := p.isPrefixOf s

/-- Go `strings.HasSuffix(s, p)`. -/
def HasSuffix (s p : List Char) : Bool := p.isSuffixOf s

/-- Go `strings.Count(s, "#")`, the one-byte case of `strings.Count`: the
number of occurrences of the rune in `s`. -/
def Count (s : List Char) (c : Char) : Nat := s.count c

/-- Go `strings.Index(s, sub)`: the byte offset of the first occurrence of
`sub` in `s`, or `-1`.  In valid UTF-8 an occurrence of a non-empty valid
string starts at a rune boundary, so the scan goes rune by rune. -/
def Index : List Char → List Char → Int
  | [], sub => if sub.isPrefixOf [] then 0 else -1
  | c :: t, sub =>
    if sub.isPrefixOf (c :: t) then 0
    else
      let r := Index t sub
      if r < 0 then -1 else r + c.utf8Size

/-! ## Messages and commands of the event loop -/

/-- The values of `tea.MouseEventType`. -/
inductive MouseEventType
  | MouseUnknown | MouseLeft | MouseRight | MouseMiddle | MouseRelease
  | MouseWheelUp | MouseWheelDown | MouseMotion
  deriving DecidableEq, Repr

/-- A `tea.Msg`.  A key message carries what `msg.String()` returns for it;
`tea.KeyMsg{Type: tea.KeyDown}` is `KeyMsg "down"` and
`tea.KeyMsg{Type: tea.KeyRight}` is `KeyMsg "right"`. -/
inductive Msg
  | KeyMsg (name : String)
  | MouseMsg (type : MouseEventType) (X Y : Int)
  | error (e : String)
  | other (tag : Nat)
  deriving DecidableEq, Repr

/-- A `tea.Cmd`: `nil`, `tea.Quit`, the blink commands of the two widgets, or
a command produced by a widget. -/
inductive Cmd
  | nil | Quit | textareaBlink | textinputBlink | widget (tag : Nat)
  deriving DecidableEq, Repr

/-! ## The display widgets -/

namespace textarea

/-- Modelled from the spec: the multi-line display widget (`textarea.Model`
of the `bubbles` library, not part of this repository).  It owns the buffer
as rows of runes and a cursor `(row, col)`, `col` counted in runes. -/
structure Model where
  value : List (List Char)
  row : Nat
  col : Nat
  focus : Bool
  height : Nat
  deriving DecidableEq, Repr

/-- Modelled from the spec: the widget's state is well formed when it has
at least one row, no row holds a newline, and the cursor is on a row and
within it. -/
def Model.wf (t : Model) : Prop :=
  t.value ≠ [] ∧ (∀ l ∈ t.value, nl ∉ l) ∧ t.row < t.value.length ∧
    t.col ≤ (t.value.getD t.row []).length

/-- The text of rows joined by newlines. -/
def joinLines : List (List Char) → List Char
  | [] => []
  | [l] => l
  | l :: r :: rest => l ++ nl :: joinLines (r :: rest)

/-- Modelled from the spec: `Value()`, the buffer as one string, rows
separated by a newline. -/
def Model.Value (t : Model) : List Char := joinLines t.value

/-- Modelled from the spec: `Line()`, the index of the row the cursor is
on. -/
def Model.Line (t : Model) : Int := t.row

/-- Modelled from the spec: `Height()`. -/
def Model.Height (t : Model) : Int := t.height

/-- Modelled from the spec: `SetHeight(h)`. -/
def Model.SetHeight (t : Model) (h : Nat) : Model := { t with height := h }

/-- Modelled from the spec: `Focus()`. -/
def Model.Focus (t : Model) : Model := { t with focus := true }

/-- Modelled from the spec: `Blur()`. -/
def Model.Blur (t : Model) : Model := { t with focus := false }

/-- Modelled from the spec: `InsertString(s)`, text insertion at the cursor.
The first line of `s` goes in at the cursor, further lines become rows of
their own, what stood right of the cursor follows the last of them, and the
cursor ends right after the inserted text. -/
def Model.InsertString (t : Model) (s : List Char) : Model :=
  let cur := t.value.getD t.row []
  let head := cur.take t.col
  let tail := cur.drop t.col
  match split s with
  | [] => t
  | [l] => { t with value := t.value.set t.row (head ++ l ++ tail), col := t.col + l.length }
  | l :: r :: rest =>
    { t with
      value := t.value.take t.row ++ [head ++ l] ++ (r :: rest).dropLast ++
        [(r :: rest).getLastD [] ++ tail] ++ t.value.drop (t.row + 1)
      row := t.row + (r :: rest).length
      col := ((r :: rest).getLastD []).length }

/-- Modelled from the spec: `Reset()`, an empty buffer with the cursor at its
start. -/
def Model.Reset (t : Model) : Model := { t with value := [[]], row := 0, col := 0 }

/-- Modelled from the spec: `SetValue(s)`, which resets the widget and inserts
`s`. -/
def Model.SetValue (t : Model) (s : List Char) : Model := t.Reset.InsertString s

/-- Modelled from the spec: `textarea.New()`. -/
def New : Model := { value := [[]], row := 0, col := 0, focus := false, height := 6 }

end textarea

namespace textinput

/-- Modelled from the spec: the single-line query input (`textinput.Model` of
the `bubbles` library, not part of this repository). -/
structure Model where
  value : List Char
  pos : Nat
  focus : Bool
  deriving DecidableEq, Repr

/-- Modelled from the spec: `Value()`. -/
def Model.Value (t : Model) : List Char := t.value

/-- Modelled from the spec: `Reset()`, which empties the input. -/
def Model.Reset (t : Model) : Model := { t with value := [], pos := 0 }

/-- Modelled from the spec: `Focus()`. -/
def Model.Focus (t : Model) : Model := { t with focus := true }

/-- Modelled from the spec: `textinput.New()`. -/
def New : Model := { value := [], pos := 0, focus := false }

end textinput

/-- What the program takes from outside the repository: the rune table of
`unicode.ToLower`, the message handlers of the two widgets, the Markdown
renderer `glamour.Render(text, "dark")`, and the outcomes of the file-system
calls, where `none` is success and `some e` the error:
`osMkdirAll p` is `os.MkdirAll(filepath.Dir(p), 0755)`,
`osWriteFile p text` is `os.WriteFile(p, []byte(text), 0644)` and
`osReadFile p` is `os.ReadFile(p)`. -/
structure World where
  unicodeToLower : Char → Char
  textareaUpdate : textarea.Model → Msg → textarea.Model × Cmd
  textinputUpdate : textinput.Model → Msg → textinput.Model × Cmd
  glamourRender : List Char → Except String (List Char)
  osMkdirAll : List Char → Option String
  osWriteFile : List Char → List Char → Option String
  osReadFile : List Char → Except String (List Char)

/-- Go `strings.ToLower(s)` on valid UTF-8: every rune mapped by
`unicode.ToLower`. -/
def ToLower (w : World) (s : List Char) : List Char := s.map w.unicodeToLower

/-! ## The editor state -/

/-- The editor state, `type model struct` of the source. -/
structure model where
  textarea : textarea.Model
  textinput : textinput.Model
  filePath : List Char
  err : Option String
  previewMode : Bool
  previewContent : List Char
  helpMode : Bool
  helpContent : List Char
  searchMode : Bool
  menuVisible : Bool
  deriving DecidableEq

/-- Go `lines[i]` for an `int` index: `none` where Go panics. -/
def index (lines : List (List Char)) (i : Int) : Option (List Char) :=
  if i < 0 then none else lines[i.toNat]?

/-! ## The offset/position translator -/

/-- The loop `for i := 0; i < currentLine; i++ { cursorPos += len(lines[i]) + 1 }`
(lines 118-120 and 308-310), with `n` iterations left, at index `i`. -/
def sumLines (lines : List (List Char)) : Nat → Nat → Int → Option Int
  | 0, _, cursorPos => some cursorPos
  | n + 1, i, cursorPos =>
    match lines[i]? with
    | none => none
    | some line => sumLines lines n (i + 1) (cursorPos + len line + 1)

/-- The body of `getCursorPosition` (lines 109-121) on the buffer text and
the line index the widget reports. -/
def lineStartOffset (content : List Char) (currentLine : Int) : Option Int :=
  let lines := split content
  let currentLine := if currentLine ≥ lines.length then (lines.length : Int) - 1 else currentLine
  let currentLine := if currentLine < 0 then 0 else currentLine
  sumLines lines currentLine.toNat 0 0

/-- The method `getCursorPosition` (lines 107-122). -/
def model.getCursorPosition (m : model) : Option Int :=
  lineStartOffset m.textarea.Value m.textarea.Line

/-- The loop of lines 130-136 with its two variables, from line index `i` on:
the result is `(lineIndex, cursorPos)` after the loop.  When the loop ends
without `break`, `lineIndex` still has its initial value `0`. -/
def findLine (pos : Int) : List (List Char) → Nat → Int → Nat × Int
  | [], _, cursorPos => (0, cursorPos)
  | line :: rest, i, cursorPos =>
    if cursorPos + len line + 1 > pos then (i, cursorPos)
    else findLine pos rest (i + 1) (cursorPos + len line + 1)

/-- Lines 126-143 of `setCursorPosition`: the `(lineIndex, col)` it computes
for `pos`. -/
def lineColOfOffset (content : List Char) (pos : Int) : Option (Nat × Int) :=
  let lines := split content
  let found := findLine pos lines 0 0
  let lineIndex := found.1
  let cursorPos := found.2
  let col := pos - cursorPos
  let col := if col < 0 then 0 else col
  match lines[lineIndex]? with
  | none => none
  | some line =>
    let col := if col > len line then (len line : Int) else col
    some (lineIndex, col)

/-- The method `setCursorPosition` (lines 125-152).  The receiver is a copy of
the model and the method returns nothing; the value here is the text widget of
that copy when the method ends, which the caller never sees. -/
def model.setCursorPosition (w : World) (m : model) (pos : Int) : Option textarea.Model :=
  let content := m.textarea.Value
  match lineColOfOffset content pos with
  | none => none
  | some (lineIndex, col) =>
    let ta := m.textarea.SetValue content
    let ta := Nat.iterate (fun t => (w.textareaUpdate t (Msg.KeyMsg "down")).1) lineIndex ta
    let ta := Nat.iterate (fun t => (w.textareaUpdate t (Msg.KeyMsg "right")).1) col.toNat ta
    some ta

/-- The loop `for i, r := range line` of lines 301-306: `i` is the byte index
of rune `r`. -/
def charIndexLoop (col : Int) : List Char → Int → Int → Int
  | [], _, charIndex => charIndex
  | r :: rest, i, charIndex =>
    if i ≥ col then charIndex
    else charIndexLoop col rest (i + r.utf8Size) (charIndex + r.utf8Size)

/-- Lines 290-314: the offset a click at adjusted row `row` and column `col`
passes to `setCursorPosition`. -/
def clickOffset (content : List Char) (row col : Int) : Option Int :=
  let lines := split content
  let lineIndex := row
  let lineIndex := if lineIndex ≥ lines.length then (lines.length : Int) - 1 else lineIndex
  let lineIndex := if lineIndex < 0 then 0 else lineIndex
  match index lines lineIndex with
  | none => none
  | some line =>
    let charIndex := charIndexLoop col line 0 0
    match sumLines lines lineIndex.toNat 0 0 with
    | none => none
    | some cursorPos =>
      let cursorPos := cursorPos + charIndex
      let cursorPos := if cursorPos > len content then (len content : Int) else cursorPos
      some cursorPos

/-! ## The event handler -/

/-- Lines 324-329: a message no case returned on goes to the text widget when
no modal view is open. -/
def model.passthrough (w : World) (m : model) (msg : Msg) : Option (model × Cmd) :=
  if !m.previewMode && !m.searchMode && !m.helpMode then
    let r := w.textareaUpdate m.textarea msg
    some ({ m with textarea := r.1 }, r.2)
  else some (m, Cmd.nil)

/-- A call `m.setCursorPosition(pos)` as seen from outside the method: the
argument it was given and the text widget of the callee's copy of the model
when the method ends.  The caller's model is not part of it: the method has a
value receiver and no result. -/
structure Call where
  pos : Int
  widget : textarea.Model
  deriving DecidableEq

/-- The statement `m.setCursorPosition(pos)` in a caller: `none` if the method
panics, else the record of the call. -/
def model.callSetCursorPosition (w : World) (m : model) (pos : Int) : Option Call :=
  (m.setCursorPosition w pos).map fun ta => { pos := pos, widget := ta }

/-- A marker shortcut (lines 257-276): insert `text`, then call
`m.setCursorPosition(m.getCursorPosition() - n)` and return `m`.  The value is
what the case returns, followed by the call it made. -/
def model.insertMarker (w : World) (m : model) (text : List Char) (n : Int) :
    Option ((model × Cmd) × Option Call) :=
  let m := { m with textarea := m.textarea.InsertString text }
  match m.getCursorPosition with
  | none => none
  | some p =>
    match m.callSetCursorPosition w (p - n) with
    | none => none
    | some call => some ((m, Cmd.nil), some call)

/-- The header shortcut `ctrl+h` (lines 233-252). -/
def model.headerToggle (m : model) : Option (model × Cmd) :=
  let content := m.textarea.Value
  let currentLine := m.textarea.Line
  let lines := split content
  if currentLine < lines.length then
    match index lines currentLine with
    | none => none
    | some lineContent =>
      if HasPrefix lineContent "#".toList then
        let count := Count lineContent '#'
        if count < 6 then
          some ({ m with textarea := m.textarea.InsertString "#".toList }, Cmd.nil)
        else some (m, Cmd.nil)
      else some ({ m with textarea := m.textarea.InsertString "# ".toList }, Cmd.nil)
  else some ({ m with textarea := m.textarea.InsertString "# ".toList }, Cmd.nil)

/-- The `enter` case of Search mode (lines 177-188): what the case returns,
followed by the call of `setCursorPosition` it made, if any. -/
def model.searchCommit (w : World) (m : model) : Option ((model × Cmd) × Option Call) :=
  let query := m.textinput.Value
  let called : Option (Option Call) :=
    if query ≠ [] then
      let content := m.textarea.Value
      let idx := Index (ToLower w content) (ToLower w query)
      if idx ≥ 0 then (m.callSetCursorPosition w idx).map some else some none
    else some none
  match called with
  | none => none
  | some call =>
    some (({ m with searchMode := false, textinput := m.textinput.Reset,
                    textarea := m.textarea.Focus }, Cmd.textareaBlink), call)

/-- The left-click case (lines 283-317), before the message falls through to
line 324: the call of `setCursorPosition` it made, if any. -/
def model.click (w : World) (m : model) (X Y : Int) : Option (Option Call) :=
  let row := Y - 3
  let row := if m.menuVisible then row - 1 else row
  if row ≥ 0 ∧ row < m.textarea.Height then
    match clickOffset m.textarea.Value row X with
    | none => none
    | some cursorPos => (m.callSetCursorPosition w cursorPos).map some
  else some none

/-- The body of the method `Update` (lines 155-330): the model and the command
it returns, followed by the call of `setCursorPosition` it made on the way, if
any; `none` if it panics. -/
def model.handle (w : World) (m : model) (msg : Msg) :
    Option ((model × Cmd) × Option Call) :=
  match msg with
  | Msg.KeyMsg key =>
    if m.previewMode || m.helpMode then
      if key = "esc" ∨ key = "f5" then some (({ m with previewMode := false }, Cmd.nil), none)
      else if key = "f1" then some (({ m with helpMode := false }, Cmd.nil), none)
      else some ((m, Cmd.nil), none)
    else if m.searchMode then
      if key = "esc" then
        some (({ m with searchMode := false, textinput := m.textinput.Reset,
                        textarea := m.textarea.Focus }, Cmd.textareaBlink), none)
      else if key = "enter" then m.searchCommit w
      else
        let r := w.textinputUpdate m.textinput msg
        some (({ m with textinput := r.1 }, r.2), none)
    else if key = "esc" ∨ key = "f10" then some ((m, Cmd.Quit), none)
    else if key = "f1" then some (({ m with helpMode := true }, Cmd.nil), none)
    else if key = "f2" then
      match w.osMkdirAll m.filePath with
      | some e => some (({ m with err := some e }, Cmd.nil), none)
      | none =>
        match w.osWriteFile m.filePath m.textarea.Value with
        | some e => some (({ m with err := some e }, Cmd.Quit), none)
        | none => some ((m, Cmd.Quit), none)
    else if key = "f3" then
      some (({ m with searchMode := true, textarea := m.textarea.Blur,
                      textinput := m.textinput.Focus }, Cmd.textinputBlink), none)
    else if key = "f4" then
      let visible := !m.menuVisible
      some (({ m with menuVisible := visible,
                      textarea := m.textarea.SetHeight (if visible then 20 else 22) },
             Cmd.nil), none)
    else if key = "f5" then
      let rendered := match w.glamourRender m.textarea.Value with
        | Except.ok r => r
        | Except.error _ => m.textarea.Value
      some (({ m with previewContent := rendered, previewMode := true }, Cmd.nil), none)
    else if key = "ctrl+h" then m.headerToggle.map fun r => (r, none)
    else if key = "ctrl+l" then
      some (({ m with textarea := m.textarea.InsertString "- ".toList }, Cmd.nil), none)
    else if key = "ctrl+b" then m.insertMarker w "****".toList 2
    else if key = "ctrl+i" then m.insertMarker w "**".toList 1
    else if key = "ctrl+k" then m.insertMarker w "[text](url)".toList 10
    else if key = "ctrl+m" then m.insertMarker w "\x60\x60".toList 1
    else (m.passthrough w msg).map fun r => (r, none)
  | Msg.MouseMsg type X Y =>
    if m.previewMode || m.helpMode || m.searchMode then some ((m, Cmd.nil), none)
    else
      let clicked : Option (Option Call) :=
        if type = MouseEventType.MouseLeft then m.click w X Y else some none
      match clicked with
      | none => none
      | some call => (m.passthrough w msg).map fun r => (r, call)
  | Msg.error e => some (({ m with err := some e }, Cmd.nil), none)
  | Msg.other _ => (m.passthrough w msg).map fun r => (r, none)

/-- The method `Update` (lines 155-330): the model and the command it returns,
`none` if it panics. -/
def model.Update (w : World) (m : model) (msg : Msg) : Option (model × Cmd) :=
  (m.handle w msg).map Prod.fst

/-- The text of the help view (lines 75-87). -/
def helpContent : List Char :=
  ("84 Keybindings:\nF1: Show this help\nF2: Save and exit\nF3: Search text\n" ++
   "F4: Toggle function key menu\nF5: Toggle Markdown preview\n" ++
   "F10/Esc: Quit without saving\nCtrl+H: Insert header\nCtrl+L: Insert list item\n" ++
   "Ctrl+B: Insert bold markers\nCtrl+I: Insert italic markers\n" ++
   "Ctrl+K: Insert link template\nCtrl+M: Insert inline code").toList

/-- The function `InitialModel` (lines 51-99). -/
def InitialModel (w : World) (filePath : List Char) : model :=
  let filePath :=
    if !HasSuffix filePath ".md".toList && !HasSuffix filePath ".bookmark.md".toList then
      filePath ++ ".md".toList
    else filePath
  let ta := textarea.New
  let ta := ta.Focus
  let ta := ta.SetHeight 20
  let ta := match w.osReadFile filePath with
    | Except.ok content => ta.SetValue content
    | Except.error _ => ta
  let ti := textinput.New
  { textarea := ta, textinput := ti, filePath := filePath, err := none,
    previewMode := false, previewContent := [], helpMode := false,
    helpContent := helpContent, searchMode := false, menuVisible := true }

/-! ## Measures used by the statements -/

/-- The byte offset at which line `i` starts: the sum of `len line + 1` over
the lines before it. -/
def lineStart (lines : List (List Char)) (i : Nat) : Nat :=
  ((lines.take i).map fun l => len l + 1).sum

/-- The flat byte offset of the widget cursor: the start of its row plus the
bytes of the runes left of it in the row. -/
def cursorOffset (t : textarea.Model) : Nat :=
  lineStart t.value t.row + len ((t.value.getD t.row []).take t.col)

/-- The number of leading runes of `s` equal to `c`. -/
def leading (c : Char) : List Char → Nat
  | [] => 0
  | d :: t => if d = c then leading c t + 1 else 0

/-- Normal mode: no modal view is open. -/
def model.isNormal (m : model) : Prop :=
  m.previewMode = false ∧ m.helpMode = false ∧ m.searchMode = false

/-- Search mode: the query input is open and no other modal view is. -/
def model.isSearch (m : model) : Prop :=
  m.previewMode = false ∧ m.helpMode = false ∧ m.searchMode = true

/-- The same message handled `n` times in a row, each time by the model the
previous `Update` returned. -/
def model.repeatUpdate (w : World) (msg : Msg) : Nat → model → Option model
  | 0, m => some m
  | n + 1, m =>
    match m.Update w msg with
    | none => none
    | some r => model.repeatUpdate w msg n r.1

/-- A model in Normal mode, menu shown, whose text widget holds `rows` with
the cursor at `(row, col)`. -/
def editing (rows : List (List Char)) (row col : Nat) : model :=
  { textarea := { value := rows, row := row, col := col, focus := true, height := 20 },
    textinput := textinput.New, filePath := "notes.md".toList, err := none,
    previewMode := false, previewContent := [], helpMode := false,
    helpContent := helpContent, searchMode := false, menuVisible := true }

/-- A model in Search mode whose text widget holds `rows` with the cursor at
`(row, col)` and whose query input holds `query`. -/
def searching (rows : List (List Char)) (row col : Nat) (query : List Char) : model :=
  { editing rows row col with
    textarea := { value := rows, row := row, col := col, focus := false, height := 20 },
    textinput := { value := query, pos := query.length, focus := true },
    searchMode := true }

/-- A world for evaluating the handler on concrete models: ASCII lower-casing,
widgets that leave their state as it is, a renderer that returns its input,
and file-system calls that succeed on writing and find no file on reading. -/
def quietWorld : World :=
  { unicodeToLower := Char.toLower
    textareaUpdate := fun t _ => (t, Cmd.nil)
    textinputUpdate := fun t _ => (t, Cmd.nil)
    glamourRender := fun s => Except.ok s
    osMkdirAll := fun _ => none
    osWriteFile := fun _ _ => none
    osReadFile := fun _ => Except.error "no such file" }

/-- Help mode: the help view is open and no other modal view is. -/
def model.isHelp (m : model) : Prop :=
  m.helpMode = true ∧ m.previewMode = false ∧ m.searchMode = false

/-- At most one of the three mode flags is set. -/
def model.modesExclusive (m : model) : Prop :=
  ¬ (m.previewMode = true ∧ m.helpMode = true) ∧
  ¬ (m.previewMode = true ∧ m.searchMode = true) ∧
  ¬ (m.helpMode = true ∧ m.searchMode = true)

/-- A session: the messages handled in order, each by the model the previous
`Update` returned and in the world it arrives in. -/
def model.run : List (World × Msg) → model → Option model
  | [], m => some m
  | step :: rest, m =>
    match m.Update step.1 step.2 with
    | none => none
    | some r => model.run rest r.1

/-- A model in Help mode whose text widget holds `rows` with the cursor at
`(row, col)`. -/
def helping (rows : List (List Char)) (row col : Nat) : model :=
  { editing rows row col with helpMode := true }

/-- A world as `quietWorld`, except that writing the file fails. -/
def writeFailsWorld : World :=
  { quietWorld with osWriteFile := fun _ _ => some "write failed" }

/-- A world as `quietWorld`, except that the Markdown renderer fails. -/
def renderFailsWorld : World :=
  { quietWorld with glamourRender := fun _ => Except.error "render failed" }

/-- The four marker shortcuts (lines 257-276): the key, the text inserted and
the number subtracted from `getCursorPosition()`. -/
def markers : List (String × List Char × Int) :=
  [("ctrl+b", "****".toList, 2), ("ctrl+i", "**".toList, 1),
   ("ctrl+k", "[text](url)".toList, 10), ("ctrl+m", "\x60\x60".toList, 1)]

/-! ## Lemmas on lines and offsets -/

theorem split_ne_nil (s : List Char) : split s ≠ [] := by
  cases s with
  | nil => simp [split]
  | cons c t =>
    simp only [split]
    split_ifs
    · simp
    · split <;> simp

theorem split_length_pos (s : List Char) : 0 < (split s).length :=
  List.length_pos.mpr (split_ne_nil s)

theorem len_append (a b : List Char) : len (a ++ b) = len a + len b := by
  induction a with
  | nil => simp [len]
  | cons c t ih => simp [len, ih, Nat.add_assoc]

theorem len_nl : nl.utf8Size = 1 := by decide

theorem lineStart_zero (lines : List (List Char)) : lineStart lines 0 = 0 := by
  simp [lineStart]

theorem lineStart_cons_succ (l : List Char) (ls : List (List Char)) (j : Nat) :
    lineStart (l :: ls) (j + 1) = len l + 1 + lineStart ls j := by
  simp [lineStart]

theorem lineStart_succ (lines : List (List Char)) (j : Nat) (h : j < lines.length) :
    lineStart lines (j + 1) = lineStart lines j + len (lines.getD j []) + 1 := by
  induction lines generalizing j with
  | nil => simp at h
  | cons l ls ih =>
    cases j with
    | zero => simp [lineStart]
    | succ k =>
      have hk : k < ls.length := by simpa using h
      rw [lineStart_cons_succ, lineStart_cons_succ, ih k hk]
      simp only [List.getD_cons_succ]
      omega

theorem lineStart_of_length_le (lines : List (List Char)) (j : Nat) (h : lines.length ≤ j) :
    lineStart lines j = lineStart lines lines.length := by
  simp [lineStart, List.take_of_length_le h]

theorem lineStart_mono (lines : List (List Char)) {i j : Nat} (h : i ≤ j) :
    lineStart lines i ≤ lineStart lines j := by
  induction lines generalizing i j with
  | nil => simp [lineStart]
  | cons l ls ih =>
    cases i with
    | zero => simp [lineStart_zero]
    | succ a =>
      cases j with
      | zero => omega
      | succ b =>
        rw [lineStart_cons_succ, lineStart_cons_succ]
        have := ih (Nat.le_of_succ_le_succ h)
        omega

/-- The lines of a buffer, each counted with its separator, add up to the
byte length of the buffer plus one. -/
theorem lineStart_split (s : List Char) :
    lineStart (split s) (split s).length = len s + 1 := by
  induction s with
  | nil => simp [split, lineStart, len]
  | cons c t ih =>
    simp only [split]
    split_ifs with hc
    · rw [List.length_cons, lineStart_cons_succ, ih]
      simp [len, hc, len_nl]
      omega
    · cases hs : split t with
      | nil => exact absurd hs (split_ne_nil t)
      | cons h r =>
        rw [hs] at ih
        simp only [List.length_cons] at ih ⊢
        rw [lineStart_cons_succ] at ih ⊢
        simp only [len]
        omega

theorem lineStart_le_len (s : List Char) (j : Nat) (h : j < (split s).length) :
    lineStart (split s) j + len ((split s).getD j []) ≤ len s := by
  have h1 := lineStart_succ (split s) j h
  have h2 := lineStart_mono (split s) (Nat.succ_le_of_lt h)
  have h3 := lineStart_split s
  simp only [Nat.succ_eq_add_one] at h2
  omega

theorem sumLines_eq (lines : List (List Char)) (n i : Nat) (acc : Int)
    (h : i + n ≤ lines.length) :
    sumLines lines n i acc = some (acc + lineStart lines (i + n) - lineStart lines i) := by
  induction n generalizing i acc with
  | zero => simp [sumLines]
  | succ k ih =>
    have hi : i < lines.length := by omega
    simp only [sumLines, List.getElem?_eq_getElem hi]
    rw [ih (i + 1) _ (by omega)]
    have := lineStart_succ lines i hi
    rw [List.getD_eq_getElem _ _ hi] at this
    congr 1
    have e : i + 1 + k = i + (k + 1) := by omega
    rw [e, this]
    push_cast
    ring

theorem sumLines_zero (lines : List (List Char)) (n : Nat) (h : n ≤ lines.length) :
    sumLines lines n 0 0 = some (lineStart lines n : Int) := by
  rw [sumLines_eq lines n 0 0 (by omega)]
  simp [lineStart_zero]

/-- The loop of `setCursorPosition` on an offset it can reach: it breaks at
the line whose span holds the offset. -/
theorem findLine_inRange (pos : Int) (ls : List (List Char)) (i : Nat) (acc : Int)
    (h1 : acc ≤ pos) (h2 : pos < acc + lineStart ls ls.length) :
    ∃ j, j < ls.length ∧ findLine pos ls i acc = (i + j, acc + lineStart ls j) ∧
      acc + lineStart ls j ≤ pos ∧ pos < acc + lineStart ls (j + 1) := by
  induction ls generalizing i acc with
  | nil => simp [lineStart] at h2; omega
  | cons l ls ih =>
    by_cases hb : acc + len l + 1 > pos
    · refine ⟨0, by simp, ?_, ?_, ?_⟩
      · simp [findLine, hb, lineStart_zero]
      · simp [lineStart_zero, h1]
      · rw [lineStart_cons_succ, lineStart_zero]; push_cast; omega
    · have h1' : acc + len l + 1 ≤ pos := by omega
      have h2' : pos < (acc + len l + 1) + lineStart ls ls.length := by
        rw [List.length_cons, lineStart_cons_succ] at h2
        push_cast at h2; omega
      obtain ⟨j, hj, hf, ha, hb'⟩ := ih (i + 1) (acc + len l + 1) h1' h2'
      refine ⟨j + 1, by simpa using hj, ?_, ?_, ?_⟩
      · simp only [findLine, hb, if_false, hf, lineStart_cons_succ]
        congr 1
        · omega
        · push_cast; ring
      · rw [lineStart_cons_succ]; push_cast; omega
      · rw [lineStart_cons_succ]; push_cast; omega

/-- The loop of `setCursorPosition` on an offset below its accumulator: it
breaks at once. -/
theorem findLine_below (pos : Int) (l : List Char) (ls : List (List Char)) (i : Nat)
    (acc : Int) (h : pos ≤ acc) : findLine pos (l :: ls) i acc = (i, acc) := by
  have : acc + len l + 1 > pos := by omega
  simp [findLine, this]

/-- The loop of `setCursorPosition` on an offset past every line: it never
breaks, and `lineIndex` stays `0`. -/
theorem findLine_above (pos : Int) (ls : List (List Char)) (i : Nat) (acc : Int)
    (h : acc + lineStart ls ls.length ≤ pos) :
    findLine pos ls i acc = (0, acc + lineStart ls ls.length) := by
  induction ls generalizing i acc with
  | nil => simp [findLine, lineStart]
  | cons l ls ih =>
    rw [List.length_cons, lineStart_cons_succ] at h ⊢
    have hle : 0 ≤ (lineStart ls ls.length : Int) := by positivity
    push_cast at h
    have hb : ¬ (acc + len l + 1 > pos) := by omega
    simp only [findLine, hb, if_false]
    rw [ih (i + 1) (acc + len l + 1) (by omega)]
    congr 1
    push_cast; ring

/-- What `setCursorPosition` computes for an offset inside the buffer: the
line whose span holds the offset, and the distance from that line's start. -/
theorem lineColOfOffset_inRange (content : List Char) (o : Int)
    (h0 : 0 ≤ o) (h1 : o ≤ len content) :
    ∃ l : Nat, l < (split content).length ∧
      findLine o (split content) 0 0 = (l, (lineStart (split content) l : Int)) ∧
      lineColOfOffset content o = some (l, o - lineStart (split content) l) ∧
      (lineStart (split content) l : Int) ≤ o ∧
      o ≤ lineStart (split content) l + len ((split content).getD l []) := by
  have htot := lineStart_split content
  have h2 : o < 0 + (lineStart (split content) (split content).length : Int) := by
    rw [htot]; push_cast; omega
  obtain ⟨j, hj, hf, ha, hb⟩ := findLine_inRange o (split content) 0 0 h0 h2
  have hs := lineStart_succ (split content) j hj
  rw [hs] at hb
  push_cast at hb
  simp only [Nat.zero_add, Int.zero_add] at hf ha hb
  refine ⟨j, hj, hf, ?_, ha, by omega⟩
  have hget : (split content)[j]? = some ((split content).getD j []) := by
    rw [List.getElem?_eq_getElem hj, List.getD_eq_getElem _ _ hj]
  have hc1 : ¬ (o - (lineStart (split content) j : Int) < 0) := by omega
  have hc2 : ¬ (o - (lineStart (split content) j : Int) >
      (len ((split content).getD j []) : Int)) := by omega
  simp only [lineColOfOffset, hf, hget, hc1, hc2, if_false]

/-- What `setCursorPosition` computes for a negative offset: line 0,
column 0. -/
theorem lineColOfOffset_neg (content : List Char) (o : Int) (h : o ≤ 0) :
    lineColOfOffset content o = some (0, 0) := by
  cases hs : split content with
  | nil => exact absurd hs (split_ne_nil content)
  | cons l ls =>
    have hf := findLine_below o l ls 0 0 h
    have hl : (0 : Int) ≤ len l := by positivity
    by_cases hz : o < 0
    · have hc : ¬ ((0 : Int) > len l) := by omega
      simp [lineColOfOffset, hs, hf, hz, hc]
    · have ho : o = 0 := by omega
      subst ho
      have hc : ¬ ((0 : Int) > len l) := by omega
      simp [lineColOfOffset, hs, hf, hc]

/-- What `setCursorPosition` computes for an offset past the end of the
buffer: the loop never breaks, the line index stays 0, and the column is the
excess over `len content + 1`, cut at the length of the first line. -/
theorem lineColOfOffset_above (content : List Char) (o : Int) (h : (len content : Int) < o) :
    lineColOfOffset content o =
      some (0, min (o - (len content + 1)) (len ((split content).getD 0 []))) := by
  have htot := lineStart_split content
  have hf := findLine_above o (split content) 0 0 (by rw [htot]; push_cast; omega)
  rw [htot] at hf
  cases hs : split content with
  | nil => exact absurd hs (split_ne_nil content)
  | cons l ls =>
    rw [hs] at hf
    have hc1 : ¬ (o - (0 + ((len content + 1 : Nat) : Int)) < 0) := by push_cast; omega
    simp only [lineColOfOffset, hs, hf, hc1, if_false, List.getElem?_cons_zero,
      List.getD_cons_zero]
    congr 2
    push_cast
    rcases le_total (o - (len content + 1 : Int)) (len l) with hle | hle
    · rw [min_eq_left hle]
      have : ¬ (o - (0 + ((len content : Int) + 1)) > (len l : Int)) := by omega
      simp only [this, if_false]; ring
    · rw [min_eq_right hle]
      by_cases hgt : o - (0 + ((len content : Int) + 1)) > (len l : Int)
      · simp only [hgt, if_true]
      · simp only [hgt, if_false]; omega

/-- What `getCursorPosition` computes: the start of the line, the reported
index cut to the lines there are. -/
theorem lineStartOffset_eq (content : List Char) (i : Int) :
    lineStartOffset content i =
      some (lineStart (split content)
        (max 0 (min i ((split content).length - 1))).toNat : Int) := by
  have hpos := split_length_pos content
  unfold lineStartOffset
  simp only []
  by_cases h1 : i ≥ ((split content).length : Int)
  · have e : max 0 (min i (((split content).length : Int) - 1)) =
        ((split content).length : Int) - 1 := by
      rw [min_eq_right (by omega), max_eq_right (by omega)]
    have hn : ¬ (((split content).length : Int) - 1 < 0) := by omega
    simp only [h1, if_true, hn, if_false, e]
    exact sumLines_zero _ _ (by omega)
  · simp only [h1, if_false]
    by_cases h2 : i < 0
    · have e : max 0 (min i (((split content).length : Int) - 1)) = 0 := by
        rw [min_eq_left (by omega), max_eq_left (by omega)]
      simp only [h2, if_true, e]
      exact sumLines_zero _ _ (by simp)
    · have e : max 0 (min i (((split content).length : Int) - 1)) = i := by
        rw [min_eq_left (by omega), max_eq_right (by omega)]
      simp only [h2, if_false, e]
      exact sumLines_zero _ _ (by omega)

/-! ## Lemmas on the widget and the handler -/

theorem split_of_no_nl (l : List Char) (h : nl ∉ l) : split l = [l] := by
  induction l with
  | nil => rfl
  | cons c t ih =>
    have hc : c ≠ nl := fun e => h (by simp [e])
    have ht : nl ∉ t := fun e => h (List.mem_cons_of_mem _ e)
    simp [split, hc, ih ht]

theorem split_append_nl (l s : List Char) (h : nl ∉ l) :
    split (l ++ nl :: s) = l :: split s := by
  induction l with
  | nil => simp [split]
  | cons c t ih =>
    have hc : c ≠ nl := fun e => h (by simp [e])
    have ht : nl ∉ t := fun e => h (List.mem_cons_of_mem _ e)
    simp [split, hc, ih ht]

/-- Splitting the text of the widget gives back its rows. -/
theorem split_joinLines (rows : List (List Char)) (hne : rows ≠ [])
    (h : ∀ l ∈ rows, nl ∉ l) : split (textarea.joinLines rows) = rows := by
  induction rows with
  | nil => exact absurd rfl hne
  | cons l rest ih =>
    cases rest with
    | nil => exact split_of_no_nl l (h l (by simp))
    | cons r rest' =>
      simp only [textarea.joinLines]
      rw [split_append_nl l _ (h l (by simp))]
      rw [ih (by simp) (fun x hx => h x (List.mem_cons_of_mem _ hx))]

theorem split_Value (t : textarea.Model) (h : t.wf) : split t.Value = t.value :=
  split_joinLines t.value h.1 h.2.1

/-- The computation of `setCursorPosition` never fails. -/
theorem setCursorPosition_isSome (w : World) (m : model) (pos : Int) :
    ∃ ta, m.setCursorPosition w pos = some ta := by
  have key : ∃ r, lineColOfOffset m.textarea.Value pos = some r := by
    by_cases hn : pos ≤ 0
    · exact ⟨_, lineColOfOffset_neg _ pos hn⟩
    · by_cases hr : pos ≤ len m.textarea.Value
      · obtain ⟨l, _, _, hc, _, _⟩ := lineColOfOffset_inRange _ pos (by omega) hr
        exact ⟨_, hc⟩
      · exact ⟨_, lineColOfOffset_above _ pos (by omega)⟩
  obtain ⟨r, hr⟩ := key
  simp [model.setCursorPosition, hr]

/-- A call of `setCursorPosition` never fails; its record holds the argument
and the widget the method ends with. -/
theorem callSetCursorPosition_isSome (w : World) (m : model) (pos : Int) :
    ∃ ta, m.setCursorPosition w pos = some ta ∧
      m.callSetCursorPosition w pos = some { pos := pos, widget := ta } := by
  obtain ⟨ta, hta⟩ := setCursorPosition_isSome w m pos
  exact ⟨ta, hta, by simp [model.callSetCursorPosition, hta]⟩

/-- A marker shortcut returns the model as `InsertString` left it: what
`setCursorPosition` does stays in its own copy. -/
theorem insertMarker_eq (w : World) (m : model) (text : List Char) (n : Int) :
    (m.insertMarker w text n).map Prod.fst =
      some ({ m with textarea := m.textarea.InsertString text }, Cmd.nil) := by
  unfold model.insertMarker
  simp only []
  rw [show model.getCursorPosition { m with textarea := m.textarea.InsertString text } =
    some _ from lineStartOffset_eq _ _]
  simp only []
  obtain ⟨ta, _, hta⟩ := callSetCursorPosition_isSome w
    { m with textarea := m.textarea.InsertString text }
    (lineStart (split (m.textarea.InsertString text).Value)
      (max 0 (min (m.textarea.InsertString text).Line
        ((split (m.textarea.InsertString text).Value).length - 1))).toNat - n)
  rw [hta]
  rfl

/-- Committing a search returns the model with only the mode, the query input
and the focus changed. -/
theorem searchCommit_eq (w : World) (m : model) :
    (m.searchCommit w).map Prod.fst =
      some ({ m with searchMode := false, textinput := m.textinput.Reset,
                     textarea := m.textarea.Focus }, Cmd.textareaBlink) := by
  unfold model.searchCommit
  simp only []
  split_ifs with h1 h2
  · obtain ⟨ta, _, hta⟩ := callSetCursorPosition_isSome w m
      (Index (ToLower w m.textarea.Value) (ToLower w m.textinput.Value))
    simp [hta]
  · rfl
  · rfl

theorem map_fst_map_pair {α β : Type} (o : Option α) (c : β) :
    (o.map fun r => (r, c)).map Prod.fst = o := by
  cases o <;> rfl

theorem map_fst_ite {α β : Type} (c : Prop) [Decidable c] (a b : Option (α × β)) :
    (if c then a else b).map Prod.fst = if c then a.map Prod.fst else b.map Prod.fst := by
  split_ifs <;> rfl

/-- The method `Update` on a key message, written out: the cases of lines
157-277 with the record of the call dropped. -/
theorem Update_KeyMsg (w : World) (m : model) (key : String) :
    m.Update w (Msg.KeyMsg key) =
      if m.previewMode || m.helpMode then
        if key = "esc" ∨ key = "f5" then some ({ m with previewMode := false }, Cmd.nil)
        else if key = "f1" then some ({ m with helpMode := false }, Cmd.nil)
        else some (m, Cmd.nil)
      else if m.searchMode then
        if key = "esc" then
          some ({ m with searchMode := false, textinput := m.textinput.Reset,
                         textarea := m.textarea.Focus }, Cmd.textareaBlink)
        else if key = "enter" then (m.searchCommit w).map Prod.fst
        else
          some ({ m with textinput := (w.textinputUpdate m.textinput (Msg.KeyMsg key)).1 },
            (w.textinputUpdate m.textinput (Msg.KeyMsg key)).2)
      else if key = "esc" ∨ key = "f10" then some (m, Cmd.Quit)
      else if key = "f1" then some ({ m with helpMode := true }, Cmd.nil)
      else if key = "f2" then
        match w.osMkdirAll m.filePath with
        | some e => some ({ m with err := some e }, Cmd.nil)
        | none =>
          match w.osWriteFile m.filePath m.textarea.Value with
          | some e => some ({ m with err := some e }, Cmd.Quit)
          | none => some (m, Cmd.Quit)
      else if key = "f3" then
        some ({ m with searchMode := true, textarea := m.textarea.Blur,
                       textinput := m.textinput.Focus }, Cmd.textinputBlink)
      else if key = "f4" then
        some ({ m with menuVisible := !m.menuVisible,
                       textarea := m.textarea.SetHeight (if !m.menuVisible then 20 else 22) },
          Cmd.nil)
      else if key = "f5" then
        some ({ m with
                previewContent := (match w.glamourRender m.textarea.Value with
                  | Except.ok r => r
                  | Except.error _ => m.textarea.Value)
                previewMode := true }, Cmd.nil)
      else if key = "ctrl+h" then m.headerToggle
      else if key = "ctrl+l" then
        some ({ m with textarea := m.textarea.InsertString "- ".toList }, Cmd.nil)
      else if key = "ctrl+b" then (m.insertMarker w "****".toList 2).map Prod.fst
      else if key = "ctrl+i" then (m.insertMarker w "**".toList 1).map Prod.fst
      else if key = "ctrl+k" then (m.insertMarker w "[text](url)".toList 10).map Prod.fst
      else if key = "ctrl+m" then (m.insertMarker w "\x60\x60".toList 1).map Prod.fst
      else m.passthrough w (Msg.KeyMsg key) := by
  simp only [model.Update, model.handle]
  simp only [map_fst_ite, Option.map_some', map_fst_map_pair]
  cases w.osMkdirAll m.filePath <;> cases w.osWriteFile m.filePath m.textarea.Value <;> rfl

/-! ## Lemmas on the header shortcut -/

theorem hash_ne_nl : ('#' : Char) ≠ nl := by decide

theorem leading_replicate_append (c : Char) (j : Nat) (rest : List Char) (h : c ∉ rest) :
    leading c (List.replicate j c ++ rest) = j := by
  induction j with
  | zero =>
    cases rest with
    | nil => rfl
    | cons d t =>
      have hd : d ≠ c := fun e => h (by simp [e])
      simp [leading, hd]
  | succ n ih => simp [List.replicate_succ, leading, ih]

theorem Count_replicate_append (c : Char) (j : Nat) (rest : List Char) (h : c ∉ rest) :
    Count (List.replicate j c ++ rest) c = j := by
  simp [Count, List.count_append, List.count_replicate_self, List.count_eq_zero_of_not_mem h]

theorem HasPrefix_replicate_append (c : Char) (j : Nat) (rest : List Char) (h : 1 ≤ j) :
    HasPrefix (List.replicate j c ++ rest) [c] = true := by
  obtain ⟨n, rfl⟩ : ∃ n, j = n + 1 := ⟨j - 1, by omega⟩
  simp [HasPrefix, List.replicate_succ, List.isPrefixOf]

/-- Inserting one more `c` at a column inside a run of `k` leading `c` gives a
run of `k + 1`. -/
theorem insert_in_run (c : Char) (k col : Nat) (rest : List Char) (h : col ≤ k) :
    (List.replicate k c ++ rest).take col ++ [c] ++ (List.replicate k c ++ rest).drop col =
      List.replicate (k + 1) c ++ rest := by
  have hlen : col ≤ (List.replicate k c).length := by simpa using h
  rw [List.take_append_of_le_length hlen, List.drop_append_of_le_length hlen]
  simp only [List.take_replicate, List.drop_replicate, min_eq_left h]
  have e : List.replicate (k + 1) c =
      List.replicate col c ++ [c] ++ List.replicate (k - col) c := by
    have hk : k + 1 = col + 1 + (k - col) := by omega
    rw [hk, List.replicate_add, List.replicate_add]
    rfl
  rw [e]
  simp [List.append_assoc]

theorem index_of_lt (lines : List (List Char)) (i : Nat) (h : i < lines.length) :
    index lines (i : Int) = some (lines.getD i []) := by
  have hn : ¬ ((i : Int) < 0) := by omega
  simp [index, hn, List.getElem?_eq_getElem h, List.getD_eq_getElem _ _ h]

/-- The header shortcut on a line of `k` leading `#` and no other, cursor
within the run: one `#` more while `k < 6`, nothing at `k = 6`. -/
theorem headerToggle_run (m : model) (k : Nat) (rest : List Char)
    (hwf : m.textarea.wf)
    (hline : m.textarea.value.getD m.textarea.row [] = List.replicate k '#' ++ rest)
    (hrest : '#' ∉ rest) (hk1 : 1 ≤ k) (hcol : m.textarea.col ≤ k) :
    m.headerToggle =
      if k < 6 then
        some ({ m with textarea := { m.textarea with
                  value := m.textarea.value.set m.textarea.row
                    (List.replicate (k + 1) '#' ++ rest)
                  col := m.textarea.col + 1 } }, Cmd.nil)
      else some (m, Cmd.nil) := by
  have hrow := hwf.2.2.1
  have hsplit := split_Value m.textarea hwf
  have hlt : (m.textarea.Line : Int) < ((split m.textarea.Value).length : Int) := by
    rw [hsplit]; simp only [textarea.Model.Line]; exact_mod_cast hrow
  have hidx : index (split m.textarea.Value) m.textarea.Line =
      some (List.replicate k '#' ++ rest) := by
    rw [hsplit, ← hline]; exact index_of_lt _ _ hrow
  have hpre : HasPrefix (List.replicate k '#' ++ rest) "#".toList = true :=
    HasPrefix_replicate_append '#' k rest hk1
  have hcount := Count_replicate_append '#' k rest hrest
  have hins : m.textarea.InsertString "#".toList =
      { m.textarea with
        value := m.textarea.value.set m.textarea.row (List.replicate (k + 1) '#' ++ rest)
        col := m.textarea.col + 1 } := by
    have hs : split "#".toList = [['#']] := by decide
    simp only [textarea.Model.InsertString, hs, hline, insert_in_run '#' k _ rest hcol,
      List.length_singleton]
  simp only [model.headerToggle, hlt, if_true, hidx, hpre, hcount, hins]

theorem Update_header_normal (w : World) (m : model) (hn : m.isNormal) :
    m.Update w (Msg.KeyMsg "ctrl+h") = m.headerToggle := by
  obtain ⟨hp, hh, hs⟩ := hn
  simp only [Update_KeyMsg, hp, hh, hs, Bool.or_self, Bool.false_eq_true, if_false,
    String.reduceEq, or_self, if_true]

/-- The widget stays well formed when the cursor row is replaced by a longer
row without newline and the cursor moves one rune right. -/
theorem wf_set_row (t : textarea.Model) (line : List Char) (hwf : t.wf)
    (hnl : nl ∉ line) (hlen : t.col + 1 ≤ line.length) :
    textarea.Model.wf { t with value := t.value.set t.row line, col := t.col + 1 } := by
  obtain ⟨hne, hrows, hrow, _⟩ := hwf
  refine ⟨?_, ?_, ?_, ?_⟩
  · intro h
    have := congrArg List.length h
    simp only [List.length_set, List.length_nil] at this
    exact hne (List.length_eq_zero.mp this)
  · intro l hl
    rcases List.mem_or_eq_of_mem_set hl with h | h
    · exact hrows l h
    · rw [h]; exact hnl
  · simpa using hrow
  · have hr : t.row < (t.value.set t.row line).length := by simpa using hrow
    simp only [List.getD_eq_getElem _ _ hr, List.getElem_set_self]
    exact hlen

theorem set_getD_self (l : List (List Char)) (i : Nat) : l.set i (l.getD i []) = l := by
  induction l generalizing i with
  | nil => rfl
  | cons a t ih =>
    cases i with
    | zero => rfl
    | succ j =>
      have h := ih j
      simp only [List.getD_cons_succ, List.set_cons_succ, h]

/-- The header shortcut repeated on a line of `k` leading `#` and no other,
cursor within the run. -/
theorem repeat_header (w : World) (rest : List Char) (hrest : '#' ∉ rest) :
    ∀ (n : Nat) (m : model) (k : Nat), m.isNormal → m.textarea.wf →
      m.textarea.value.getD m.textarea.row [] = List.replicate k '#' ++ rest →
      1 ≤ k → k ≤ 6 → m.textarea.col ≤ k →
      ∃ r : model, m.repeatUpdate w (Msg.KeyMsg "ctrl+h") n = some r ∧
        r.textarea.value = m.textarea.value.set m.textarea.row
          (List.replicate (min (k + n) 6) '#' ++ rest) ∧
        r.textarea.row = m.textarea.row ∧
        r.textarea.col = m.textarea.col + (min (k + n) 6 - k) ∧
        (k = 6 → r = m) := by
  intro n
  induction n with
  | zero =>
    intro m k _ hwf hline _ hk6 _
    have hrow := hwf.2.2.1
    refine ⟨m, rfl, ?_, rfl, ?_, fun _ => rfl⟩
    · have e : min (k + 0) 6 = k := by simp [hk6]
      rw [e, ← hline, set_getD_self]
    · have e : min (k + 0) 6 = k := by simp [hk6]
      rw [e]; simp
  | succ n ih =>
    intro m k hn hwf hline hk1 hk6 hcol
    have hstep := headerToggle_run m k rest hwf hline hrest hk1 hcol
    rw [← Update_header_normal w m hn] at hstep
    have hrow := hwf.2.2.1
    by_cases hlt : k < 6
    · simp only [hlt, if_true] at hstep
      have hnlcur : nl ∉ List.replicate k '#' ++ rest := by
        rw [← hline, List.getD_eq_getElem _ _ hrow]
        exact hwf.2.1 _ (List.getElem_mem _)
      have hnl1 : nl ∉ List.replicate (k + 1) '#' ++ rest := by
        intro h
        rcases List.mem_append.mp h with h | h
        · exact hash_ne_nl (List.eq_of_mem_replicate h).symm
        · exact hnlcur (List.mem_append_right _ h)
      have hwf1 := wf_set_row m.textarea (List.replicate (k + 1) '#' ++ rest) hwf hnl1
        (by simp only [List.length_append, List.length_replicate]; omega)
      have hr1 : m.textarea.row <
          (m.textarea.value.set m.textarea.row (List.replicate (k + 1) '#' ++ rest)).length := by
        simpa using hrow
      obtain ⟨r, hr, hv, hro, hco, _⟩ := ih
        { m with textarea := { m.textarea with
            value := m.textarea.value.set m.textarea.row (List.replicate (k + 1) '#' ++ rest)
            col := m.textarea.col + 1 } }
        (k + 1) hn hwf1
        (by simp only [List.getD_eq_getElem _ _ hr1, List.getElem_set_self])
        (by omega) (by omega) (by simpa using hcol)
      refine ⟨r, ?_, ?_, hro, ?_, fun h => by omega⟩
      · simp only [model.repeatUpdate, hstep]
        exact hr
      · rw [hv]
        simp only [List.set_set]
        have e : k + 1 + n = k + (n + 1) := by omega
        rw [e]
      · rw [hco]
        have e : k + 1 + n = k + (n + 1) := by omega
        rw [e]
        show m.textarea.col + 1 + (min (k + (n + 1)) 6 - (k + 1)) =
          m.textarea.col + (min (k + (n + 1)) 6 - k)
        omega
    · simp only [hlt, if_false] at hstep
      have hk : k = 6 := by omega
      obtain ⟨r, hr, hv, hro, hco, hsame⟩ := ih m k hn hwf hline hk1 hk6 hcol
      have hrm := hsame hk
      subst hrm
      refine ⟨r, ?_, ?_, rfl, ?_, fun _ => rfl⟩
      · simp only [model.repeatUpdate, hstep]
        exact hr
      · have e : min (k + (n + 1)) 6 = min (k + n) 6 := by omega
        rw [e]; exact hv
      · have e : min (k + (n + 1)) 6 = min (k + n) 6 := by omega
        rw [e]; exact hco

/-- The search of `strings.Index` reports `-1` exactly when the string does
not occur. -/
theorem Index_eq_neg_one_iff (s sub : List Char) : Index s sub = -1 ↔ ¬ sub <:+: s := by
  induction s with
  | nil =>
    cases sub with
    | nil => simp [Index]
    | cons a t => simp [Index, List.isPrefixOf]
  | cons c t ih =>
    have hsz : (0 : Int) ≤ (c.utf8Size : Int) := by positivity
    rw [List.infix_cons_iff]
    by_cases hp : sub.isPrefixOf (c :: t) = true
    · have hpre : sub <+: c :: t := List.isPrefixOf_iff_prefix.mp hp
      simp [Index, hp, hpre]
    · have hpre : ¬ sub <+: c :: t := fun h => hp (List.isPrefixOf_iff_prefix.mpr h)
      have hnn : Index t sub = -1 ∨ 0 ≤ Index t sub := by
        clear ih hp hpre
        induction t with
        | nil => simp only [Index]; split_ifs <;> simp
        | cons d u ihu =>
          have : (0 : Int) ≤ (d.utf8Size : Int) := by positivity
          simp only [Index]
          split_ifs
          · right; exact le_refl _
          · left; rfl
          · right; omega
      simp only [Index, hp, Bool.false_eq_true, if_false, hpre, false_or]
      rw [← ih]
      rcases hnn with h | h
      · simp [h]
      · have hlt : ¬ (Index t sub < 0) := by omega
        simp only [hlt, if_false]
        constructor <;> intro h' <;> omega

/-! ## The offset/position translator: claims C1 to C5 -/

/-- C1: for every buffer and every offset `o` with `0 ≤ o ≤ len buffer`, the
`(lineIndex, col)` that `setCursorPosition` computes satisfies
`lineStart lineIndex + col = o`, and `col` is the plain difference between `o`
and the accumulator the loop ends with: the clamps of lines 138-143 leave it
as it is. -/
theorem cursorFromOffset_exact (content : List Char) (o : Int)
    (h0 : 0 ≤ o) (h1 : o ≤ len content) :
    ∃ (l : Nat) (c : Int), lineColOfOffset content o = some (l, c) ∧
      (lineStart (split content) l : Int) + c = o ∧
      c = o - (findLine o (split content) 0 0).2 := by
  obtain ⟨l, _, hf, hc, _, _⟩ := lineColOfOffset_inRange content o h0 h1
  exact ⟨l, o - lineStart (split content) l, hc, by ring, by rw [hf]⟩

/-- An instance: offset 4 of the buffer `"ab\ncd"`. -/
theorem cursorFromOffset_exact_witness :
    (0 : Int) ≤ 4 ∧ (4 : Int) ≤ len "ab\ncd".toList ∧
    ∃ (l : Nat) (c : Int), lineColOfOffset "ab\ncd".toList 4 = some (l, c) ∧
      (lineStart (split "ab\ncd".toList) l : Int) + c = 4 ∧
      c = 4 - (findLine 4 (split "ab\ncd".toList) 0 0).2 :=
  ⟨by decide, by decide, cursorFromOffset_exact "ab\ncd".toList 4 (by decide) (by decide)⟩

/-- C2: for every buffer and every offset `o` with `0 ≤ o ≤ len buffer`, if
`setCursorPosition` computes `(l, c)` for `o`, then `getCursorPosition` with
current line `l` returns `o - c`, which is at most `o`, lies at most
`len lines[l]` below `o`, and is itself mapped by `setCursorPosition` to
`(l, 0)`. -/
theorem roundTrip_lineStart (content : List Char) (o : Int)
    (h0 : 0 ≤ o) (h1 : o ≤ len content) :
    ∃ (l : Nat) (c : Int), lineColOfOffset content o = some (l, c) ∧
      lineStartOffset content l = some (o - c) ∧
      (∀ m : model, m.textarea.Value = content → m.textarea.Line = l →
        m.getCursorPosition = some (o - c)) ∧
      o - c ≤ o ∧ o - (o - c) ≤ len ((split content).getD l []) ∧
      lineColOfOffset content (o - c) = some (l, 0) := by
  obtain ⟨l, hl, _, hc, ha, hb⟩ := lineColOfOffset_inRange content o h0 h1
  have hstart : lineStartOffset content l = some (lineStart (split content) l : Int) := by
    rw [lineStartOffset_eq]
    have hpos := split_length_pos content
    have e : max 0 (min (l : Int) (((split content).length : Int) - 1)) = l := by
      rw [min_eq_left (by omega), max_eq_right (by omega)]
    rw [e]; simp
  have hsub : o - (o - (lineStart (split content) l : Int)) = lineStart (split content) l := by
    ring
  have hle := lineStart_le_len content l hl
  obtain ⟨l', hl', _, hc', ha', hb'⟩ := lineColOfOffset_inRange content
    (lineStart (split content) l) (by positivity) (by exact_mod_cast (by omega))
  have hll : l' = l := by
    rcases Nat.lt_trichotomy l' l with hlt | heq | hgt
    · have h1 := lineStart_mono (split content) (Nat.succ_le_of_lt hlt)
      have h2 := lineStart_succ (split content) l' hl'
      simp only [Nat.succ_eq_add_one] at h1
      have : (lineStart (split content) l : Int) ≤
          lineStart (split content) l' + len ((split content).getD l' []) := hb'
      omega
    · exact heq
    · have h1 := lineStart_mono (split content) (Nat.succ_le_of_lt hgt)
      have h2 := lineStart_succ (split content) l hl
      simp only [Nat.succ_eq_add_one] at h1
      have : (lineStart (split content) l' : Int) ≤ lineStart (split content) l := ha'
      omega
  subst hll
  refine ⟨l', o - lineStart (split content) l', hc, ?_, ?_, by omega, by omega, ?_⟩
  · rw [hsub]; exact hstart
  · intro m hv hline
    rw [hsub]
    simp only [model.getCursorPosition, hv, hline]
    exact hstart
  · rw [hsub, hc']; simp

/-- An instance: offset 4 of the buffer `"ab\ncd"`. -/
theorem roundTrip_lineStart_witness :
    (0 : Int) ≤ 4 ∧ (4 : Int) ≤ len "ab\ncd".toList ∧
    ∃ (l : Nat) (c : Int), lineColOfOffset "ab\ncd".toList 4 = some (l, c) ∧
      lineStartOffset "ab\ncd".toList l = some (4 - c) ∧
      (∀ m : model, m.textarea.Value = "ab\ncd".toList → m.textarea.Line = l →
        m.getCursorPosition = some (4 - c)) ∧
      4 - c ≤ 4 ∧ 4 - (4 - c) ≤ len ((split "ab\ncd".toList).getD l []) ∧
      lineColOfOffset "ab\ncd".toList (4 - c) = some (l, 0) :=
  ⟨by decide, by decide, roundTrip_lineStart "ab\ncd".toList 4 (by decide) (by decide)⟩

/-- C3: for every buffer and every integer offset, negative ones and ones past
the end included, `setCursorPosition` computes a line index in
`[0, lineCount - 1]` and a column in `[0, len lines[lineIndex]]` and does not
index `lines` out of bounds; `getCursorPosition` does not index out of bounds
for any line index the widget reports. -/
theorem translator_total (w : World) (content : List Char) (pos i : Int) :
    (∃ (l : Nat) (c : Int), lineColOfOffset content pos = some (l, c) ∧
      l < (split content).length ∧ 0 ≤ c ∧ c ≤ len ((split content).getD l [])) ∧
    (∃ p : Int, lineStartOffset content i = some p) ∧
    (∀ m : model, (m.setCursorPosition w pos).isSome = true ∧
      m.getCursorPosition.isSome = true) := by
  have key : ∀ (s : List Char) (p : Int), ∃ (l : Nat) (c : Int),
      lineColOfOffset s p = some (l, c) ∧
      l < (split s).length ∧ 0 ≤ c ∧ c ≤ len ((split s).getD l []) := by
    intro s p
    have hpos := split_length_pos s
    by_cases hn : p ≤ 0
    · exact ⟨0, 0, lineColOfOffset_neg s p hn, hpos, le_refl _, by positivity⟩
    · by_cases hr : p ≤ len s
      · obtain ⟨l, hl, _, hc, ha, hb⟩ := lineColOfOffset_inRange s p (by omega) hr
        exact ⟨l, _, hc, hl, by omega, by omega⟩
      · refine ⟨0, _, lineColOfOffset_above s p (by omega), hpos, ?_, min_le_right _ _⟩
        exact le_min (by omega) (by positivity)
  refine ⟨key content pos, ⟨_, lineStartOffset_eq content i⟩, ?_⟩
  intro m
  constructor
  · obtain ⟨l, c, hc, _⟩ := key m.textarea.Value pos
    simp [model.setCursorPosition, hc]
  · simp [model.getCursorPosition, lineStartOffset_eq]

/-- C4: on the buffer `"a\nb"` (byte length 3) the offset 4 is past the end;
`setCursorPosition` computes line 0, column 0 for it, while for the offset 3,
the end of the buffer, it computes line 1, column 1. -/
theorem pastEnd_not_clamped_to_end :
    lineColOfOffset "a\nb".toList 4 = some (0, 0) ∧
    lineColOfOffset "a\nb".toList (len "a\nb".toList) = some (1, 1) := by
  decide

/-- C5: for every buffer and every current line index `i`, `getCursorPosition`
returns the sum of `len lines[j] + 1` over the lines before line `i` cut to
`[0, lineCount - 1]`; the result lies in `[0, len buffer]` and does not depend
on the cursor column. -/
theorem getCursorPosition_lineStart (content : List Char) (i : Int) :
    lineStartOffset content i =
      some (lineStart (split content)
        (max 0 (min i ((split content).length - 1))).toNat : Int) ∧
    lineStart (split content) (max 0 (min i ((split content).length - 1))).toNat
      ≤ len content ∧
    (∀ m : model, m.textarea.Value = content → m.textarea.Line = i →
      m.getCursorPosition = some (lineStart (split content)
        (max 0 (min i ((split content).length - 1))).toNat : Int)) ∧
    (∀ (m : model) (col : Nat),
      model.getCursorPosition { m with textarea := { m.textarea with col := col } } =
        m.getCursorPosition) := by
  have hpos := split_length_pos content
  refine ⟨lineStartOffset_eq content i, ?_, ?_, ?_⟩
  · have hj : (max 0 (min i (((split content).length : Int) - 1))).toNat <
        (split content).length := by
      have : max 0 (min i (((split content).length : Int) - 1)) ≤
          ((split content).length : Int) - 1 :=
        max_le (by omega) (min_le_right _ _)
      omega
    have := lineStart_le_len content _ hj
    omega
  · intro m hv hline
    simp only [model.getCursorPosition, hv, hline]
    exact lineStartOffset_eq content i
  · intro m col
    rfl

/-! ## Structured edits and search: claims C6 to C10 -/

/-- C6: on the buffer `"ab"` with the cursor at flat offset 1, the bold
shortcut returns the buffer `"a****b"` with the cursor at row 0, column 5,
flat offset 5: the end of the inserted marker, not offset `1 + 4 - 2 = 3`. -/
theorem bold_leaves_cursor_at_insertion_end (w : World) :
    ∃ m : model, (editing ["ab".toList] 0 1).Update w (Msg.KeyMsg "ctrl+b") =
        some (m, Cmd.nil) ∧
      cursorOffset (editing ["ab".toList] 0 1).textarea = 1 ∧
      m.textarea.Value = "a****b".toList ∧
      (m.textarea.row, m.textarea.col) = (0, 5) ∧
      cursorOffset m.textarea = 5 := by
  refine ⟨{ editing ["ab".toList] 0 1 with
      textarea := (editing ["ab".toList] 0 1).textarea.InsertString "****".toList },
    ?_, by decide, by decide, by decide, by decide⟩
  have h := insertMarker_eq w (editing ["ab".toList] 0 1) "****".toList 2
  simp only [Update_KeyMsg, editing, Bool.or_self, Bool.false_eq_true, if_false,
    String.reduceEq, or_self, if_true] at h ⊢
  exact h

set_option maxRecDepth 8192 in
/-- The header shortcut on a line whose six `#` are one leading and five
trailing ones. -/
theorem headerToggle_later_hashes :
    (editing ["# a#####".toList] 0 1).headerToggle =
      some (editing ["# a#####".toList] 0 1, Cmd.nil) := by
  decide

/-- C7: the line `"# a#####"` begins with exactly one `#`; with the cursor on
it, the header shortcut returns the model unchanged, so nothing is
inserted. -/
theorem header_with_later_hashes_not_incremented (w : World) :
    leading '#' "# a#####".toList = 1 ∧
    (editing ["# a#####".toList] 0 1).Update w (Msg.KeyMsg "ctrl+h") =
      some (editing ["# a#####".toList] 0 1, Cmd.nil) := by
  refine ⟨by decide, ?_⟩
  have h := headerToggle_later_hashes
  simp only [Update_KeyMsg, editing, Bool.or_self, Bool.false_eq_true, if_false,
    String.reduceEq, or_self, if_true] at h ⊢
  exact h

/-- C8: for every current line whose only `#` are its `k` leading ones,
`1 ≤ k ≤ 6`, with the cursor on that line at a column at most `k`, the header
shortcut applied `n` times yields that line with exactly `min (k + n) 6`
leading `#` followed by the same remainder, the other lines as they were; at
`k = 6` every further toggle returns the model unchanged. -/
theorem header_saturates_at_six (w : World) (m : model) (k n : Nat) (rest : List Char)
    (hn : m.isNormal) (hwf : m.textarea.wf)
    (hline : m.textarea.value.getD m.textarea.row [] = List.replicate k '#' ++ rest)
    (hrest : '#' ∉ rest) (hk1 : 1 ≤ k) (hk6 : k ≤ 6) (hcol : m.textarea.col ≤ k) :
    ∃ r : model, m.repeatUpdate w (Msg.KeyMsg "ctrl+h") n = some r ∧
      r.textarea.value = m.textarea.value.set m.textarea.row
        (List.replicate (min (k + n) 6) '#' ++ rest) ∧
      r.textarea.value.getD m.textarea.row [] = List.replicate (min (k + n) 6) '#' ++ rest ∧
      leading '#' (r.textarea.value.getD m.textarea.row []) = min (k + n) 6 ∧
      (k = 6 → r = m) := by
  obtain ⟨r, hr, hv, _, _, hsame⟩ := repeat_header w rest hrest n m k hn hwf hline hk1 hk6 hcol
  have hrow : m.textarea.row <
      (m.textarea.value.set m.textarea.row
        (List.replicate (min (k + n) 6) '#' ++ rest)).length := by
    simpa using hwf.2.2.1
  have hget : r.textarea.value.getD m.textarea.row [] =
      List.replicate (min (k + n) 6) '#' ++ rest := by
    rw [hv, List.getD_eq_getElem _ _ hrow, List.getElem_set_self]
  exact ⟨r, hr, hv, hget, by rw [hget]; exact leading_replicate_append _ _ _ hrest, hsame⟩

/-- An instance: the line `"# Title"` after one, six and seven toggles. -/
theorem header_saturates_at_six_witness :
    (editing ["# Title".toList] 0 1).isNormal ∧ (editing ["# Title".toList] 0 1).textarea.wf ∧
    '#' ∉ " Title".toList ∧
    (∃ r : model, (editing ["# Title".toList] 0 1).repeatUpdate quietWorld
        (Msg.KeyMsg "ctrl+h") 1 = some r ∧
      r.textarea.value.getD 0 [] = "## Title".toList) ∧
    (∃ r : model, (editing ["# Title".toList] 0 1).repeatUpdate quietWorld
        (Msg.KeyMsg "ctrl+h") 6 = some r ∧
      r.textarea.value.getD 0 [] = "###### Title".toList) ∧
    (∃ r : model, (editing ["# Title".toList] 0 1).repeatUpdate quietWorld
        (Msg.KeyMsg "ctrl+h") 7 = some r ∧
      r.textarea.value.getD 0 [] = "###### Title".toList) :=
  have hn : (editing ["# Title".toList] 0 1).isNormal := ⟨rfl, rfl, rfl⟩
  have hwf : (editing ["# Title".toList] 0 1).textarea.wf :=
    ⟨by decide, by decide, by decide, by decide⟩
  have hrest : '#' ∉ " Title".toList := by decide
  have run := fun n => header_saturates_at_six quietWorld (editing ["# Title".toList] 0 1)
    1 n " Title".toList hn hwf rfl hrest (le_refl 1) (by decide) (le_refl 1)
  ⟨hn, hwf, hrest,
    (run 1).elim fun r h => ⟨r, h.1, h.2.2.1⟩,
    (run 6).elim fun r h => ⟨r, h.1, h.2.2.1⟩,
    (run 7).elim fun r h => ⟨r, h.1, h.2.2.1⟩⟩

/-- C9: on the buffer `"hello world\nbye"` with the cursor at its end (row 1,
column 3, flat offset 15), committing the query `"WORLD"` returns a model
whose cursor is still at row 1, column 3, not at offset 6, which is row 0,
column 6. -/
theorem search_commit_leaves_cursor (w : World) :
    ∃ m : model,
      (searching ["hello world".toList, "bye".toList] 1 3 "WORLD".toList).Update w
        (Msg.KeyMsg "enter") = some (m, Cmd.textareaBlink) ∧
      m.textarea.Value = "hello world\nbye".toList ∧
      (m.textarea.row, m.textarea.col) = (1, 3) ∧
      cursorOffset m.textarea = 15 ∧
      lineColOfOffset "hello world\nbye".toList 6 = some (0, 6) := by
  refine ⟨{ searching ["hello world".toList, "bye".toList] 1 3 "WORLD".toList with
      searchMode := false
      textinput := (searching ["hello world".toList, "bye".toList] 1 3
        "WORLD".toList).textinput.Reset
      textarea := (searching ["hello world".toList, "bye".toList] 1 3
        "WORLD".toList).textarea.Focus },
    ?_, by decide, by decide, by decide, by decide⟩
  have h := searchCommit_eq w (searching ["hello world".toList, "bye".toList] 1 3 "WORLD".toList)
  simp only [Update_KeyMsg, searching, editing, Bool.or_self, Bool.false_eq_true, if_false,
    String.reduceEq, or_self, if_true] at h ⊢
  exact h

/-- C10: for every model in Search mode, committing with an empty query or
with a query that does not occur in the buffer ignoring case, and cancelling
with esc, each return a model in Normal mode with the query input empty and
with the buffer text and the cursor of the input model. -/
theorem search_miss_changes_only_mode (w : World) (m : model) (hs : m.isSearch) :
    ((m.textinput.Value = [] ∨
        ¬ (ToLower w m.textinput.Value) <:+: (ToLower w m.textarea.Value)) →
      ∃ (r : model) (c : Cmd), m.Update w (Msg.KeyMsg "enter") = some (r, c) ∧
        r.isNormal ∧ r.textinput.Value = [] ∧ r.textarea.Value = m.textarea.Value ∧
        r.textarea.row = m.textarea.row ∧ r.textarea.col = m.textarea.col) ∧
    (∃ (r : model) (c : Cmd), m.Update w (Msg.KeyMsg "esc") = some (r, c) ∧
      r.isNormal ∧ r.textinput.Value = [] ∧ r.textarea.Value = m.textarea.Value ∧
      r.textarea.row = m.textarea.row ∧ r.textarea.col = m.textarea.col) := by
  obtain ⟨hp, hh, hsm⟩ := hs
  constructor
  · intro _
    refine ⟨{ m with searchMode := false, textinput := m.textinput.Reset,
                     textarea := m.textarea.Focus }, Cmd.textareaBlink, ?_, ?_⟩
    · simp only [Update_KeyMsg, hp, hh, hsm, Bool.or_self, Bool.false_eq_true, if_false,
        if_true, String.reduceEq]
      rw [searchCommit_eq]
      simp only [hp, hh]
    · exact ⟨⟨hp, hh, rfl⟩, rfl, rfl, rfl, rfl⟩
  · refine ⟨{ m with searchMode := false, textinput := m.textinput.Reset,
                     textarea := m.textarea.Focus }, Cmd.textareaBlink, ?_, ?_⟩
    · simp only [Update_KeyMsg, hp, hh, hsm, Bool.or_self, Bool.false_eq_true, if_false,
        if_true]
    · exact ⟨⟨hp, hh, rfl⟩, rfl, rfl, rfl, rfl⟩

/-- An instance: the query `"xyz"` on the buffer `"hello world\nbye"`. -/
theorem search_miss_changes_only_mode_witness :
    (searching ["hello world".toList, "bye".toList] 1 3 "xyz".toList).isSearch ∧
    ¬ (ToLower quietWorld "xyz".toList) <:+: (ToLower quietWorld "hello world\nbye".toList) ∧
    (∃ (r : model) (c : Cmd),
      (searching ["hello world".toList, "bye".toList] 1 3 "xyz".toList).Update quietWorld
        (Msg.KeyMsg "enter") = some (r, c) ∧
      r.isNormal ∧ r.textinput.Value = [] ∧
      r.textarea.Value = "hello world\nbye".toList ∧
      r.textarea.row = 1 ∧ r.textarea.col = 3) ∧
    (∃ (r : model) (c : Cmd),
      (searching ["hello world".toList, "bye".toList] 1 3 "xyz".toList).Update quietWorld
        (Msg.KeyMsg "esc") = some (r, c) ∧
      r.isNormal ∧ r.textinput.Value = [] ∧
      r.textarea.Value = "hello world\nbye".toList ∧
      r.textarea.row = 1 ∧ r.textarea.col = 3) :=
  have hmiss : ¬ (ToLower quietWorld "xyz".toList) <:+:
      (ToLower quietWorld "hello world\nbye".toList) := by decide
  ⟨⟨rfl, rfl, rfl⟩, hmiss,
    (search_miss_changes_only_mode quietWorld
      (searching ["hello world".toList, "bye".toList] 1 3 "xyz".toList)
      ⟨rfl, rfl, rfl⟩).1 (Or.inr hmiss),
    (search_miss_changes_only_mode quietWorld
      (searching ["hello world".toList, "bye".toList] 1 3 "xyz".toList)
      ⟨rfl, rfl, rfl⟩).2⟩


/-! ## Lemmas on the handler as a state machine -/

/-- The click computation never fails. -/
theorem clickOffset_isSome (content : List Char) (row col : Int) :
    ∃ p, clickOffset content row col = some p := by
  have hpos := split_length_pos content
  unfold clickOffset
  simp only []
  generalize hL : (if (if row ≥ ((split content).length : Int) then
      ((split content).length : Int) - 1 else row) < 0 then (0 : Int)
      else (if row ≥ ((split content).length : Int) then
        ((split content).length : Int) - 1 else row)) = L
  have hL0 : 0 ≤ L := by rw [← hL]; split_ifs <;> omega
  have hL1 : L < (split content).length := by rw [← hL]; split_ifs <;> omega
  have hidx : index (split content) L = some ((split content).getD L.toNat []) := by
    have := index_of_lt (split content) L.toNat (by omega)
    rwa [Int.toNat_of_nonneg hL0] at this
  rw [hidx]
  simp only []
  rw [sumLines_zero _ _ (by omega)]
  exact ⟨_, rfl⟩

theorem click_isSome (w : World) (m : model) (X Y : Int) :
    ∃ call, m.click w X Y = some call := by
  have key : ∀ row : Int, ∃ call, (match clickOffset m.textarea.Value row X with
      | none => none
      | some cursorPos => (m.callSetCursorPosition w cursorPos).map some) = some call := by
    intro row
    obtain ⟨p, hp⟩ := clickOffset_isSome m.textarea.Value row X
    obtain ⟨ta, _, hta⟩ := callSetCursorPosition_isSome w m p
    exact ⟨_, by simp only [hp, hta]; rfl⟩
  unfold model.click
  simp only []
  split_ifs
  · exact key _
  · exact ⟨_, rfl⟩
  · exact key _
  · exact ⟨_, rfl⟩

/-- The method `Update` on a mouse message: the message is dropped while a
modal view is open and goes to the text widget otherwise; what a click asks
of `setCursorPosition` does not show in the result. -/
theorem Update_MouseMsg (w : World) (m : model) (type : MouseEventType) (X Y : Int) :
    m.Update w (Msg.MouseMsg type X Y) =
      if m.previewMode || m.helpMode || m.searchMode then some (m, Cmd.nil)
      else m.passthrough w (Msg.MouseMsg type X Y) := by
  simp only [model.Update, model.handle, map_fst_ite, Option.map_some']
  obtain ⟨call, hcall⟩ := click_isSome w m X Y
  by_cases hmodal : (m.previewMode || m.helpMode || m.searchMode) = true
  · simp only [hmodal, if_true]
  · simp only [hmodal, if_false]
    by_cases hleft : type = MouseEventType.MouseLeft
    · simp only [hleft, if_true, hcall, map_fst_map_pair]
    · simp only [hleft, if_false, map_fst_map_pair]

theorem Update_error (w : World) (m : model) (e : String) :
    m.Update w (Msg.error e) = some ({ m with err := some e }, Cmd.nil) := rfl

theorem Update_other (w : World) (m : model) (tag : Nat) :
    m.Update w (Msg.other tag) = m.passthrough w (Msg.other tag) := by
  simp only [model.Update, model.handle, map_fst_map_pair]

/-- The header shortcut changes the text widget only. -/
theorem headerToggle_frame (m : model) :
    ∃ ta, m.headerToggle = some ({ m with textarea := ta }, Cmd.nil) := by
  unfold model.headerToggle
  simp only []
  split_ifs with h
  · have hrow : m.textarea.row < (split m.textarea.Value).length := by
      simp only [textarea.Model.Line] at h; exact_mod_cast h
    have hidx := index_of_lt (split m.textarea.Value) m.textarea.row hrow
    simp only [textarea.Model.Line, hidx]
    split_ifs
    · exact ⟨_, rfl⟩
    · exact ⟨m.textarea, rfl⟩
    · exact ⟨_, rfl⟩
  · exact ⟨_, rfl⟩

/-- The fall-through of lines 324-329 changes the text widget only. -/
theorem passthrough_frame (w : World) (m : model) (msg : Msg) :
    ∃ ta c, m.passthrough w msg = some ({ m with textarea := ta }, c) := by
  unfold model.passthrough
  split_ifs
  · exact ⟨_, _, rfl⟩
  · exact ⟨m.textarea, Cmd.nil, rfl⟩



/-- Every key message is handled: `Update` returns, and a model with at most
one mode flag set is followed by such a model. -/
theorem Update_key_step (w : World) (m : model) (key : String) :
    ∃ (r : model) (c : Cmd), m.Update w (Msg.KeyMsg key) = some (r, c) ∧
      (m.modesExclusive → r.modesExclusive) := by
  obtain ⟨ta1, hhead⟩ := headerToggle_frame m
  obtain ⟨ta2, c2, hpass⟩ := passthrough_frame w m (Msg.KeyMsg key)
  rw [Update_KeyMsg, hhead, hpass]
  simp only [insertMarker_eq, searchCommit_eq]
  clear hhead hpass
  rcases Bool.eq_false_or_eq_true m.previewMode with hp | hp <;>
  rcases Bool.eq_false_or_eq_true m.helpMode with hh | hh <;>
  rcases Bool.eq_false_or_eq_true m.searchMode with hs | hs <;>
  simp only [hp, hh, hs, Bool.or_self, Bool.or_true, Bool.or_false, Bool.true_or,
    Bool.false_eq_true, if_false, if_true]
  on_goal 8 =>
    by_cases h0 : key = "esc" ∨ key = "f10"
    · rw [if_pos h0]; exact ⟨_, _, rfl, fun h => by simp_all [model.modesExclusive]⟩
    rw [if_neg h0]
    by_cases h1 : key = "f1"
    · rw [if_pos h1]; exact ⟨_, _, rfl, fun h => by simp_all [model.modesExclusive]⟩
    rw [if_neg h1]
    by_cases h2 : key = "f2"
    · rw [if_pos h2]
      cases w.osMkdirAll m.filePath with
      | some e => exact ⟨_, _, rfl, fun h => by simp_all [model.modesExclusive]⟩
      | none =>
        cases w.osWriteFile m.filePath m.textarea.Value with
        | some e => exact ⟨_, _, rfl, fun h => by simp_all [model.modesExclusive]⟩
        | none => exact ⟨_, _, rfl, fun h => by simp_all [model.modesExclusive]⟩
    rw [if_neg h2]
    by_cases h3 : key = "f3"
    · rw [if_pos h3]; exact ⟨_, _, rfl, fun h => by simp_all [model.modesExclusive]⟩
    rw [if_neg h3]
    by_cases h4 : key = "f4"
    · rw [if_pos h4]; exact ⟨_, _, rfl, fun h => by simp_all [model.modesExclusive]⟩
    rw [if_neg h4]
    by_cases h5 : key = "f5"
    · rw [if_pos h5]; exact ⟨_, _, rfl, fun h => by simp_all [model.modesExclusive]⟩
    rw [if_neg h5]
    by_cases h6 : key = "ctrl+h"
    · rw [if_pos h6]; exact ⟨_, _, rfl, fun h => by simp_all [model.modesExclusive]⟩
    rw [if_neg h6]
    by_cases h7 : key = "ctrl+l"
    · rw [if_pos h7]; exact ⟨_, _, rfl, fun h => by simp_all [model.modesExclusive]⟩
    rw [if_neg h7]
    by_cases h8 : key = "ctrl+b"
    · rw [if_pos h8]; exact ⟨_, _, rfl, fun h => by simp_all [model.modesExclusive]⟩
    rw [if_neg h8]
    by_cases h9 : key = "ctrl+i"
    · rw [if_pos h9]; exact ⟨_, _, rfl, fun h => by simp_all [model.modesExclusive]⟩
    rw [if_neg h9]
    by_cases h10 : key = "ctrl+k"
    · rw [if_pos h10]; exact ⟨_, _, rfl, fun h => by simp_all [model.modesExclusive]⟩
    rw [if_neg h10]
    by_cases h11 : key = "ctrl+m"
    · rw [if_pos h11]; exact ⟨_, _, rfl, fun h => by simp_all [model.modesExclusive]⟩
    rw [if_neg h11]
    exact ⟨_, _, rfl, fun h => by simp_all [model.modesExclusive]⟩
  all_goals
    repeat' (first
      | exact ⟨_, _, rfl, fun h => by simp_all [model.modesExclusive]⟩
      | split)

/-- Every message is handled: `Update` returns, and a model with at most one
mode flag set is followed by such a model. -/
theorem Update_step (w : World) (m : model) (msg : Msg) :
    ∃ (r : model) (c : Cmd), m.Update w msg = some (r, c) ∧
      (m.modesExclusive → r.modesExclusive) := by
  obtain ⟨ta2, c2, hpass⟩ := passthrough_frame w m msg
  cases msg with
  | KeyMsg key => exact Update_key_step w m key
  | MouseMsg type X Y =>
    rw [Update_MouseMsg, hpass]
    split_ifs <;> exact ⟨_, _, rfl, fun h => by simp_all [model.modesExclusive]⟩
  | error e =>
    rw [Update_error]
    exact ⟨_, _, rfl, fun h => by simp_all [model.modesExclusive]⟩
  | other tag =>
    rw [Update_other, hpass]
    exact ⟨_, _, rfl, fun h => by simp_all [model.modesExclusive]⟩



/-- A session never fails, and from a model with at most one mode flag set it
ends in such a model. -/
theorem run_modesExclusive (steps : List (World × Msg)) :
    ∀ m : model, m.modesExclusive → ∃ r, m.run steps = some r ∧ r.modesExclusive := by
  induction steps with
  | nil => intro m hm; exact ⟨m, rfl, hm⟩
  | cons step rest ih =>
    intro m hm
    obtain ⟨r1, c1, h1, hex⟩ := Update_step step.1 m step.2
    obtain ⟨r, hr, hrex⟩ := ih r1 (hex hm)
    exact ⟨r, by simp only [model.run, h1]; exact hr, hrex⟩

/-- In Help or Preview mode a key changes at most the two flags of these
modes. -/
theorem Update_key_modal (w : World) (m : model) (key : String)
    (h : m.previewMode = true ∨ m.helpMode = true) :
    m.Update w (Msg.KeyMsg key) =
      some (if key = "esc" ∨ key = "f5" then { m with previewMode := false }
            else if key = "f1" then { m with helpMode := false } else m, Cmd.nil) := by
  have hph : (m.previewMode || m.helpMode) = true := by
    rcases h with h | h <;> simp [h]
  simp only [Update_KeyMsg, hph, if_true]
  split_ifs <;> rfl

/-- In Normal mode the keys f1 and f5 open the help view and the preview. -/
theorem Update_open_modal (w : World) (m : model) (hn : m.isNormal) :
    m.Update w (Msg.KeyMsg "f1") = some ({ m with helpMode := true }, Cmd.nil) ∧
    m.Update w (Msg.KeyMsg "f5") =
      some ({ m with
              previewContent := (match w.glamourRender m.textarea.Value with
                | Except.ok r => r
                | Except.error _ => m.textarea.Value)
              previewMode := true }, Cmd.nil) := by
  obtain ⟨hp, hh, hs⟩ := hn
  constructor <;>
    simp only [Update_KeyMsg, hp, hh, hs, Bool.or_self, Bool.false_eq_true, if_false,
      String.reduceEq, or_self, if_true]

/-! ## The mode state machine: claims C11 to C15 -/

/-- What the handler does with the two keys in Help mode: f1 returns a model in
Normal mode, esc returns the model as it is. -/
theorem help_left_by_f1_only (w : World) (m : model) (hm : m.isHelp) :
    (∃ r : model, m.Update w (Msg.KeyMsg "f1") = some (r, Cmd.nil) ∧ r.isNormal) ∧
    m.Update w (Msg.KeyMsg "esc") = some (m, Cmd.nil) ∧ ¬ m.isNormal := by
  obtain ⟨hh, hp, hs⟩ := hm
  refine ⟨⟨{ m with helpMode := false }, ?_, ⟨hp, rfl, hs⟩⟩, ?_, ?_⟩
  · rw [Update_key_modal w m "f1" (Or.inr hh)]
    simp only [String.reduceEq, or_self, if_false, if_true]
  · rw [Update_key_modal w m "esc" (Or.inr hh)]
    simp only [String.reduceEq, true_or, if_true]
    cases m
    simp_all
  · intro hn
    rw [hn.2.1] at hh
    exact Bool.false_ne_true hh

/-- C11: on a model in Help mode, `Update` with the cancel key esc returns a
model whose `helpMode` is still set: the help view is not left, the returned
model is not in Normal mode. -/
theorem help_esc_stays_in_help :
    (helping ["ab".toList] 0 0).isHelp ∧
    ∃ r : model, (helping ["ab".toList] 0 0).Update quietWorld (Msg.KeyMsg "esc") =
      some (r, Cmd.nil) ∧ r.helpMode = true ∧ ¬ r.isNormal := by
  refine ⟨⟨rfl, rfl, rfl⟩, helping ["ab".toList] 0 0, ?_, rfl, ?_⟩
  · rw [Update_key_modal quietWorld _ "esc" (Or.inr rfl)]
    simp only [String.reduceEq, true_or, if_true]
    rfl
  · intro hn
    exact absurd hn.2.1 (by decide)

/-- C12: in a world where the directory is made and the write fails, `Update`
with f2 on a Normal-mode model returns the model with `err` set to the write
error together with the command `tea.Quit`. -/
theorem failed_write_still_quits :
    (editing ["ab".toList] 0 0).isNormal ∧
    writeFailsWorld.osMkdirAll (editing ["ab".toList] 0 0).filePath = none ∧
    writeFailsWorld.osWriteFile (editing ["ab".toList] 0 0).filePath "ab".toList =
      some "write failed" ∧
    (editing ["ab".toList] 0 0).Update writeFailsWorld (Msg.KeyMsg "f2") =
      some ({ editing ["ab".toList] 0 0 with err := some "write failed" }, Cmd.Quit) := by
  refine ⟨⟨rfl, rfl, rfl⟩, rfl, rfl, ?_⟩
  simp only [Update_KeyMsg, editing, Bool.or_self, Bool.false_eq_true, if_false,
    String.reduceEq, or_self, if_true]
  rfl

/-- C13: starting from the model `InitialModel` builds and applying `Update`
to any sequence of messages, in any worlds, every message is handled and the
resulting model has at most one of `previewMode`, `helpMode` and `searchMode`
set. -/
theorem modes_mutually_exclusive (w : World) (p : List Char) (steps : List (World × Msg)) :
    ∃ r : model, (InitialModel w p).run steps = some r ∧ r.modesExclusive := by
  apply run_modesExclusive
  simp [model.modesExclusive, InitialModel]



/-- C14: for every model in Help or Preview mode and every key message, and
for every model in Help, Preview or Search mode and every mouse message,
`Update` returns no command and a model with the text widget (buffer text and
cursor), the query input, the file path, the menu visibility, the error and
the search flag of the input model; a mouse message returns the model as it
is. -/
theorem input_swallowed_outside_normal (w : World) (m : model) :
    ((m.previewMode = true ∨ m.helpMode = true) → ∀ key : String,
      ∃ r : model, m.Update w (Msg.KeyMsg key) = some (r, Cmd.nil) ∧
        r.textarea = m.textarea ∧ r.textinput = m.textinput ∧
        r.filePath = m.filePath ∧ r.menuVisible = m.menuVisible ∧
        r.err = m.err ∧ r.searchMode = m.searchMode) ∧
    ((m.previewMode = true ∨ m.helpMode = true ∨ m.searchMode = true) →
      ∀ (type : MouseEventType) (X Y : Int),
        m.Update w (Msg.MouseMsg type X Y) = some (m, Cmd.nil)) := by
  constructor
  · intro h key
    rw [Update_key_modal w m key h]
    split_ifs <;> exact ⟨_, rfl, rfl, rfl, rfl, rfl, rfl, rfl⟩
  · intro h type X Y
    have hc : (m.previewMode || m.helpMode || m.searchMode) = true := by
      rcases h with h | h | h <;> simp [h]
    simp only [Update_MouseMsg, hc, if_true]

/-- An instance: a key and a click in the help view, a click in Search
mode. -/
theorem input_swallowed_outside_normal_witness :
    (∃ r : model, (helping ["ab".toList] 0 1).Update quietWorld (Msg.KeyMsg "x") =
        some (r, Cmd.nil) ∧
      r.textarea = (helping ["ab".toList] 0 1).textarea ∧
      r.textinput = (helping ["ab".toList] 0 1).textinput ∧
      r.filePath = (helping ["ab".toList] 0 1).filePath ∧
      r.menuVisible = (helping ["ab".toList] 0 1).menuVisible ∧
      r.err = (helping ["ab".toList] 0 1).err ∧
      r.searchMode = (helping ["ab".toList] 0 1).searchMode) ∧
    (helping ["ab".toList] 0 1).Update quietWorld
        (Msg.MouseMsg MouseEventType.MouseLeft 1 4) =
      some (helping ["ab".toList] 0 1, Cmd.nil) ∧
    (searching ["ab".toList] 0 1 "a".toList).Update quietWorld
        (Msg.MouseMsg MouseEventType.MouseLeft 1 4) =
      some (searching ["ab".toList] 0 1 "a".toList, Cmd.nil) :=
  ⟨(input_swallowed_outside_normal quietWorld (helping ["ab".toList] 0 1)).1
      (Or.inr rfl) "x",
    (input_swallowed_outside_normal quietWorld (helping ["ab".toList] 0 1)).2
      (Or.inr (Or.inl rfl)) MouseEventType.MouseLeft 1 4,
    (input_swallowed_outside_normal quietWorld (searching ["ab".toList] 0 1 "a".toList)).2
      (Or.inr (Or.inr rfl)) MouseEventType.MouseLeft 1 4⟩

/-- C15: for every model in Normal mode, f5 followed by esc, f5 followed by
f5, and f1 followed by f1 each end in a model in Normal mode whose buffer text
is that of the input model, whatever the Markdown renderer returns. -/
theorem modal_round_trip (w : World) (m : model) (hn : m.isNormal) :
    (∃ r : model, m.run [(w, Msg.KeyMsg "f5"), (w, Msg.KeyMsg "esc")] = some r ∧
      r.isNormal ∧ r.textarea.Value = m.textarea.Value) ∧
    (∃ r : model, m.run [(w, Msg.KeyMsg "f5"), (w, Msg.KeyMsg "f5")] = some r ∧
      r.isNormal ∧ r.textarea.Value = m.textarea.Value) ∧
    (∃ r : model, m.run [(w, Msg.KeyMsg "f1"), (w, Msg.KeyMsg "f1")] = some r ∧
      r.isNormal ∧ r.textarea.Value = m.textarea.Value) := by
  obtain ⟨hf1, hf5⟩ := Update_open_modal w m hn
  obtain ⟨hp, hh, hs⟩ := hn
  refine ⟨⟨{ m with
        previewContent := (match w.glamourRender m.textarea.Value with
          | Except.ok r => r
          | Except.error _ => m.textarea.Value)
        previewMode := false }, ?_, ⟨rfl, hh, hs⟩, rfl⟩,
    ⟨{ m with
        previewContent := (match w.glamourRender m.textarea.Value with
          | Except.ok r => r
          | Except.error _ => m.textarea.Value)
        previewMode := false }, ?_, ⟨rfl, hh, hs⟩, rfl⟩,
    ⟨{ m with helpMode := false }, ?_, ⟨hp, rfl, hs⟩, rfl⟩⟩
  · simp only [model.run, hf5]
    rw [Update_key_modal w _ "esc" (Or.inl rfl)]
    simp only [String.reduceEq, true_or, if_true]
  · simp only [model.run, hf5]
    rw [Update_key_modal w _ "f5" (Or.inl rfl)]
    simp only [String.reduceEq, or_true, if_true]
  · simp only [model.run, hf1]
    rw [Update_key_modal w _ "f1" (Or.inr rfl)]
    simp only [String.reduceEq, or_self, if_false, if_true]

/-- An instance: the buffer `"# a"` in a world whose renderer fails. -/
theorem modal_round_trip_witness :
    (editing ["# a".toList] 0 1).isNormal ∧
    (∃ r : model, (editing ["# a".toList] 0 1).run
        [(renderFailsWorld, Msg.KeyMsg "f5"), (renderFailsWorld, Msg.KeyMsg "esc")] = some r ∧
      r.isNormal ∧ r.textarea.Value = "# a".toList) ∧
    (∃ r : model, (editing ["# a".toList] 0 1).run
        [(renderFailsWorld, Msg.KeyMsg "f5"), (renderFailsWorld, Msg.KeyMsg "f5")] = some r ∧
      r.isNormal ∧ r.textarea.Value = "# a".toList) ∧
    (∃ r : model, (editing ["# a".toList] 0 1).run
        [(renderFailsWorld, Msg.KeyMsg "f1"), (renderFailsWorld, Msg.KeyMsg "f1")] = some r ∧
      r.isNormal ∧ r.textarea.Value = "# a".toList) :=
  ⟨⟨rfl, rfl, rfl⟩,
    modal_round_trip renderFailsWorld (editing ["# a".toList] 0 1) ⟨rfl, rfl, rfl⟩⟩



/-! ## Lemmas on positions and clicks -/

/-- Line starts grow strictly: a later line starts past the end of an earlier
one. -/
theorem lineStart_lt (lines : List (List Char)) {i j : Nat} (hij : i < j)
    (hi : i < lines.length) :
    lineStart lines i + len (lines.getD i []) < lineStart lines j := by
  have h1 := lineStart_mono lines (Nat.succ_le_of_lt hij)
  have h2 := lineStart_succ lines i hi
  simp only [Nat.succ_eq_add_one] at h1
  omega

/-- The offset of column `c` of line `l` is mapped back to `(l, c)`. -/
theorem lineColOfOffset_lineStart_add (content : List Char) (l : Nat) (c : Int)
    (hl : l < (split content).length) (hc0 : 0 ≤ c)
    (hc1 : c ≤ len ((split content).getD l [])) :
    lineColOfOffset content (lineStart (split content) l + c) = some (l, c) := by
  have hle := lineStart_le_len content l hl
  obtain ⟨l', hl', _, hc', ha', hb'⟩ := lineColOfOffset_inRange content
    (lineStart (split content) l + c) (by positivity) (by omega)
  have hll : l' = l := by
    rcases Nat.lt_trichotomy l' l with hlt | heq | hgt
    · have := lineStart_lt (split content) hlt hl'
      omega
    · exact heq
    · have := lineStart_lt (split content) hgt hl
      omega
  subst hll
  rw [hc']
  congr 2
  ring

theorem len_eq_length_of_ascii (s : List Char) (h : ∀ ch ∈ s, ch.utf8Size = 1) :
    len s = s.length := by
  induction s with
  | nil => rfl
  | cons a t ih =>
    have ha := h a (by simp)
    have ht := ih (fun ch hch => h ch (List.mem_cons_of_mem _ hch))
    simp only [len, List.length_cons, ha, ht]
    omega

/-- The loop of lines 301-306 on a line of single-byte runes counts the runes
whose index is below `col`. -/
theorem charIndexLoop_ascii (col : Int) (line : List Char)
    (h : ∀ ch ∈ line, ch.utf8Size = 1) (i acc : Int) :
    charIndexLoop col line i acc = acc + min (max (col - i) 0) (len line) := by
  induction line generalizing i acc with
  | nil =>
    simp only [charIndexLoop, len]
    have : min (max (col - i) 0) ((0 : Nat) : Int) = 0 := by
      rw [Nat.cast_zero]; exact min_eq_right (le_max_right _ _)
    omega
  | cons a t ih =>
    have ha := h a (by simp)
    have ht := ih (fun ch hch => h ch (List.mem_cons_of_mem _ hch))
    simp only [charIndexLoop, len, ha]
    have hlen : (0 : Int) ≤ (len t : Int) := by positivity
    by_cases hge : i ≥ col
    · simp only [hge, if_true]
      have h1 : max (col - i) 0 = 0 := max_eq_right (by omega)
      rw [h1, min_eq_left (by push_cast; omega)]
      omega
    · simp only [hge, if_false]
      rw [ht]
      push_cast
      have h1 : max (col - i) 0 = col - i := max_eq_left (by omega)
      rw [h1]
      rcases le_total (col - (i + 1)) 0 with hle | hle
      · rw [max_eq_right hle, min_eq_left hlen]
        have : col - i = 1 := by omega
        rw [this, min_eq_left (by omega)]
        ring
      · rw [max_eq_left hle]
        rcases le_total (col - (i + 1)) (len t) with h2 | h2
        · rw [min_eq_left h2, min_eq_left (by omega)]
          ring
        · rw [min_eq_right h2, min_eq_right (by omega)]
          ring

/-- A rune of a line of the buffer is a rune of the buffer. -/
theorem mem_of_mem_split (s : List Char) :
    ∀ l ∈ split s, ∀ ch ∈ l, ch ∈ s := by
  induction s with
  | nil =>
    intro l hl ch hch
    simp only [split, List.mem_singleton] at hl
    subst hl
    exact hch
  | cons c t ih =>
    intro l hl ch hch
    simp only [split] at hl
    split_ifs at hl with hc
    · rcases List.mem_cons.mp hl with h | h
      · subst h; simp at hch
      · exact List.mem_cons_of_mem _ (ih l h ch hch)
    · cases hs : split t with
      | nil => exact absurd hs (split_ne_nil t)
      | cons hd r =>
        rw [hs] at hl ih
        simp only [] at hl
        rcases List.mem_cons.mp hl with h | h
        · subst h
          rcases List.mem_cons.mp hch with h' | h'
          · subst h'; simp
          · exact List.mem_cons_of_mem _ (ih hd (by simp) ch h')
        · exact List.mem_cons_of_mem _ (ih l (List.mem_cons_of_mem _ h) ch hch)



/-! ## Lemmas on the marker shortcuts -/

/-- Inserting a text without newline changes the cursor row only and moves
the cursor past the text. -/
theorem InsertString_single (t : textarea.Model) (text : List Char) (h : nl ∉ text) :
    t.InsertString text =
      { t with
        value := t.value.set t.row
          ((t.value.getD t.row []).take t.col ++ text ++ (t.value.getD t.row []).drop t.col)
        col := t.col + text.length } := by
  simp only [textarea.Model.InsertString, split_of_no_nl text h]

theorem lineStart_set (lines : List (List Char)) (i j : Nat) (x : List Char) (h : i ≤ j) :
    lineStart (lines.set j x) i = lineStart lines i := by
  induction lines generalizing i j with
  | nil => simp [lineStart]
  | cons a t ih =>
    cases i with
    | zero => simp [lineStart_zero]
    | succ i' =>
      cases j with
      | zero => omega
      | succ j' =>
        simp only [List.set_cons_succ, lineStart_cons_succ]
        rw [ih i' j' (by omega)]

/-- The widget stays well formed when a text without newline is inserted. -/
theorem wf_InsertString (t : textarea.Model) (text : List Char) (hwf : t.wf)
    (h : nl ∉ text) : (t.InsertString text).wf := by
  rw [InsertString_single t text h]
  obtain ⟨hne, hrows, hrow, hcol⟩ := hwf
  have hcur : nl ∉ t.value.getD t.row [] := by
    rw [List.getD_eq_getElem _ _ hrow]
    exact hrows _ (List.getElem_mem _)
  refine ⟨?_, ?_, ?_, ?_⟩
  · intro he
    have := congrArg List.length he
    simp only [List.length_set, List.length_nil] at this
    exact hne (List.length_eq_zero.mp this)
  · intro l hl
    rcases List.mem_or_eq_of_mem_set hl with h' | h'
    · exact hrows l h'
    · rw [h']
      intro hmem
      rcases List.mem_append.mp hmem with h1 | h1
      · rcases List.mem_append.mp h1 with h2 | h2
        · exact hcur (List.mem_of_mem_take h2)
        · exact h h2
      · exact hcur (List.mem_of_mem_drop h1)
  · simpa using hrow
  · have hr : t.row < (t.value.set t.row ((t.value.getD t.row []).take t.col ++ text ++
        (t.value.getD t.row []).drop t.col)).length := by simpa using hrow
    simp only [List.getD_eq_getElem _ _ hr, List.getElem_set_self, List.length_append,
      List.length_take, List.length_drop]
    omega

/-- What the four marker shortcuts have in common: the text has no newline,
the number subtracted is at least 1 and smaller than the byte length of the
text, and in Normal mode the key runs the shortcut with that text and that
number. -/
theorem markers_facts (key : String) (text : List Char) (N : Int)
    (hmk : (key, text, N) ∈ markers) :
    nl ∉ text ∧ 1 ≤ N ∧ N + 1 ≤ len text ∧
    ∀ (w : World) (m : model), m.isNormal →
      m.handle w (Msg.KeyMsg key) = m.insertMarker w text N := by
  simp only [markers, List.mem_cons, Prod.mk.injEq, List.mem_singleton, List.not_mem_nil,
    or_false] at hmk
  rcases hmk with ⟨rfl, rfl, rfl⟩ | ⟨rfl, rfl, rfl⟩ | ⟨rfl, rfl, rfl⟩ | ⟨rfl, rfl, rfl⟩ <;>
    refine ⟨by decide, by decide, by decide, ?_⟩ <;>
    intro w m hn <;>
    obtain ⟨hp, hh, hs⟩ := hn <;>
    simp only [model.handle, hp, hh, hs, Bool.or_self, Bool.false_eq_true, if_false,
      String.reduceEq, or_self, if_true]

/-- The offset a click computes on a buffer of single-byte runes: the start of
the clicked line, cut to the last line, plus the clicked column, cut to the
length of that line. -/
theorem clickOffset_ascii (content : List Char) (r X : Int)
    (hascii : ∀ ch ∈ content, ch.utf8Size = 1) (hr : 0 ≤ r) (hX : 0 ≤ X) :
    clickOffset content r X =
      some ((lineStart (split content) (min r ((split content).length - 1)).toNat : Int) +
        min X (len ((split content).getD (min r ((split content).length - 1)).toNat []))) := by
  have hpos := split_length_pos content
  have hLeq : (if (if r ≥ ((split content).length : Int) then
      ((split content).length : Int) - 1 else r) < 0 then (0 : Int)
      else (if r ≥ ((split content).length : Int) then
        ((split content).length : Int) - 1 else r)) =
      min r (((split content).length : Int) - 1) := by
    by_cases h : r ≥ ((split content).length : Int)
    · have hn : ¬ (((split content).length : Int) - 1 < 0) := by omega
      simp only [h, if_true, hn, if_false]
      exact (min_eq_right (by omega)).symm
    · have hn : ¬ (r < 0) := by omega
      simp only [h, if_false, hn]
      exact (min_eq_left (by omega)).symm
  unfold clickOffset
  simp only []
  rw [hLeq]
  generalize hL : min r (((split content).length : Int) - 1) = L
  have hL0 : 0 ≤ L := by rw [← hL]; exact le_min hr (by omega)
  have hL1 : L < (split content).length := by
    have := min_le_right r (((split content).length : Int) - 1)
    rw [hL] at this; omega
  have hlt : L.toNat < (split content).length := by omega
  have hidx : index (split content) L = some ((split content).getD L.toNat []) := by
    have := index_of_lt (split content) L.toNat hlt
    rwa [Int.toNat_of_nonneg hL0] at this
  have hline : ∀ ch ∈ (split content).getD L.toNat [], ch.utf8Size = 1 := by
    intro ch hch
    rw [List.getD_eq_getElem _ _ hlt] at hch
    exact hascii ch (mem_of_mem_split content _ (List.getElem_mem _) ch hch)
  rw [hidx]
  simp only []
  rw [sumLines_zero _ _ (by omega), charIndexLoop_ascii X _ hline 0 0]
  simp only [sub_zero, max_eq_left hX, zero_add]
  have hle := lineStart_le_len content L.toNat hlt
  have hmin : min X (len ((split content).getD L.toNat []) : Int) ≤
      len ((split content).getD L.toNat []) := min_le_right _ _
  have hng : ¬ ((lineStart (split content) L.toNat : Int) +
      min X (len ((split content).getD L.toNat []) : Int) > (len content : Int)) := by
    omega
  simp only [hng, if_false]

/-! ## Clicks, paths and positions: claims C16 to C20 -/

/-- C16: for every model in Normal mode whose buffer consists of single-byte
runes and every left click with `X ≥ 0` whose adjusted row
`r = Y - 3 - (1 if the menu is visible)` satisfies `0 ≤ r < Height()`, the
handler calls `setCursorPosition` with the offset
`lineStart L + min X (len lines[L])`, `L = min r (lineCount - 1)`; the offset
lies in `[0, len buffer]`, so the clamp of lines 312-314 does not fire, and
`setCursorPosition` computes `(L, min X (len lines[L]))` for it. -/
theorem click_targets_clamped_position (w : World) (m : model) (X Y : Int)
    (hn : m.isNormal)
    (hascii : ∀ ch ∈ m.textarea.Value, ch.utf8Size = 1) (hX : 0 ≤ X)
    (hr0 : 0 ≤ Y - 3 - (if m.menuVisible = true then 1 else 0))
    (hr1 : Y - 3 - (if m.menuVisible = true then 1 else 0) < m.textarea.Height) :
    ∃ (L : Nat) (c off : Int) (ta : textarea.Model),
      (L : Int) = min (Y - 3 - (if m.menuVisible = true then 1 else 0))
        ((split m.textarea.Value).length - 1) ∧
      c = min X (len ((split m.textarea.Value).getD L [])) ∧
      off = lineStart (split m.textarea.Value) L + c ∧
      m.handle w (Msg.MouseMsg MouseEventType.MouseLeft X Y) =
        (m.passthrough w (Msg.MouseMsg MouseEventType.MouseLeft X Y)).map
          (fun r => (r, some { pos := off, widget := ta })) ∧
      m.click w X Y = some (some { pos := off, widget := ta }) ∧
      m.setCursorPosition w off = some ta ∧
      clickOffset m.textarea.Value (Y - 3 - (if m.menuVisible = true then 1 else 0)) X =
        some off ∧
      0 ≤ off ∧ off ≤ len m.textarea.Value ∧
      lineColOfOffset m.textarea.Value off = some (L, c) := by
  have hpos := split_length_pos m.textarea.Value
  have hrow : (if m.menuVisible = true then Y - 3 - 1 else Y - 3) =
      Y - 3 - (if m.menuVisible = true then 1 else 0) := by
    split_ifs <;> ring
  generalize hr : Y - 3 - (if m.menuVisible = true then (1 : Int) else 0) = r at *
  have hoff := clickOffset_ascii m.textarea.Value r X hascii hr0 hX
  have hmin0 : 0 ≤ min r (((split m.textarea.Value).length : Int) - 1) :=
    le_min hr0 (by omega)
  have hmin1 := min_le_right r (((split m.textarea.Value).length : Int) - 1)
  have hlt : (min r (((split m.textarea.Value).length : Int) - 1)).toNat <
      (split m.textarea.Value).length := by omega
  have hc0 : (0 : Int) ≤ min X (len ((split m.textarea.Value).getD
      (min r (((split m.textarea.Value).length : Int) - 1)).toNat [])) :=
    le_min hX (by positivity)
  have hc1 := min_le_right X ((len ((split m.textarea.Value).getD
      (min r (((split m.textarea.Value).length : Int) - 1)).toNat []) : Nat) : Int)
  have hle := lineStart_le_len m.textarea.Value _ hlt
  obtain ⟨ta, hset, hcall⟩ := callSetCursorPosition_isSome w m
    ((lineStart (split m.textarea.Value)
        (min r (((split m.textarea.Value).length : Int) - 1)).toNat : Int) +
      min X (len ((split m.textarea.Value).getD
        (min r (((split m.textarea.Value).length : Int) - 1)).toNat [])))
  have hclick : m.click w X Y = some (some
      { pos := (lineStart (split m.textarea.Value)
            (min r (((split m.textarea.Value).length : Int) - 1)).toNat : Int) +
          min X (len ((split m.textarea.Value).getD
            (min r (((split m.textarea.Value).length : Int) - 1)).toNat []))
        widget := ta }) := by
    unfold model.click
    simp only []
    rw [hrow]
    have hguard : r ≥ 0 ∧ r < m.textarea.Height := ⟨hr0, hr1⟩
    simp only [hguard, and_self, if_true, hoff, hcall, Option.map_some']
  refine ⟨_, _, _, ta, (Int.toNat_of_nonneg hmin0), rfl, rfl, ?_, hclick, hset, hoff,
    by positivity, by omega, lineColOfOffset_lineStart_add _ _ _ hlt hc0 hc1⟩
  obtain ⟨hp, hh, hs⟩ := hn
  simp only [model.handle, hp, hh, hs, Bool.or_self, Bool.false_eq_true, if_false, if_true,
    hclick]

/-- An instance: a click at column 1 of the second screen row of the buffer
`"ab\ncd\nef"`, menu shown. -/
theorem click_targets_clamped_position_witness :
    ∃ (L : Nat) (c off : Int) (ta : textarea.Model),
      (L : Int) = min ((5 : Int) - 3 -
          (if (editing ["ab".toList, "cd".toList, "ef".toList] 0 0).menuVisible = true then 1 else 0))
        ((split (editing ["ab".toList, "cd".toList, "ef".toList] 0 0).textarea.Value).length - 1) ∧
      c = min (1 : Int)
        (len ((split (editing ["ab".toList, "cd".toList, "ef".toList] 0 0).textarea.Value).getD L [])) ∧
      off = lineStart (split (editing ["ab".toList, "cd".toList, "ef".toList] 0 0).textarea.Value) L + c ∧
      (editing ["ab".toList, "cd".toList, "ef".toList] 0 0).handle quietWorld
          (Msg.MouseMsg MouseEventType.MouseLeft 1 5) =
        ((editing ["ab".toList, "cd".toList, "ef".toList] 0 0).passthrough quietWorld
          (Msg.MouseMsg MouseEventType.MouseLeft 1 5)).map
          (fun r => (r, some { pos := off, widget := ta })) ∧
      (editing ["ab".toList, "cd".toList, "ef".toList] 0 0).click quietWorld 1 5 =
        some (some { pos := off, widget := ta }) ∧
      (editing ["ab".toList, "cd".toList, "ef".toList] 0 0).setCursorPosition quietWorld off = some ta ∧
      clickOffset (editing ["ab".toList, "cd".toList, "ef".toList] 0 0).textarea.Value
        ((5 : Int) - 3 -
          (if (editing ["ab".toList, "cd".toList, "ef".toList] 0 0).menuVisible = true then 1 else 0)) 1 =
        some off ∧
      0 ≤ off ∧ off ≤ len (editing ["ab".toList, "cd".toList, "ef".toList] 0 0).textarea.Value ∧
      lineColOfOffset (editing ["ab".toList, "cd".toList, "ef".toList] 0 0).textarea.Value off =
        some (L, c) :=
  click_targets_clamped_position quietWorld (editing ["ab".toList, "cd".toList, "ef".toList] 0 0) 1 5
    ⟨rfl, rfl, rfl⟩ (by decide) (by decide) (by decide) (by decide)

/-- C18: for every buffer, every line index `l` in `[0, lineCount - 1]` and
every column `c` in `[0, len lines[l]]`, `setCursorPosition` computes `(l, c)`
for the offset `lineStart l + c`; so two valid positions with the same offset
are the same position, and the offset of the end of a line is mapped to the
end of that line, not to the start of the next. -/
theorem setCursorPosition_inverts_encoding (content : List Char) (l : Nat) (c : Int)
    (hl : l < (split content).length) (hc0 : 0 ≤ c)
    (hc1 : c ≤ len ((split content).getD l [])) :
    lineColOfOffset content (lineStart (split content) l + c) = some (l, c) ∧
    (∀ (l' : Nat) (c' : Int), l' < (split content).length → 0 ≤ c' →
      c' ≤ len ((split content).getD l' []) →
      (lineStart (split content) l' : Int) + c' = lineStart (split content) l + c →
      l' = l ∧ c' = c) ∧
    lineColOfOffset content (lineStart (split content) l + len ((split content).getD l [])) =
      some (l, (len ((split content).getD l []) : Int)) := by
  refine ⟨lineColOfOffset_lineStart_add content l c hl hc0 hc1, ?_,
    lineColOfOffset_lineStart_add content l _ hl (by positivity) (le_refl _)⟩
  intro l' c' hl' hc0' hc1' heq
  have h1 := lineColOfOffset_lineStart_add content l c hl hc0 hc1
  have h2 := lineColOfOffset_lineStart_add content l' c' hl' hc0' hc1'
  rw [heq, h1] at h2
  simp only [Option.some.injEq, Prod.mk.injEq] at h2
  exact ⟨h2.1.symm, h2.2.symm⟩

/-- An instance: the end of the first line of the buffer `"ab\ncd"`. -/
theorem setCursorPosition_inverts_encoding_witness :
    lineColOfOffset "ab\ncd".toList (lineStart (split "ab\ncd".toList) 0 + 2) = some (0, 2) ∧
    (∀ (l' : Nat) (c' : Int), l' < (split "ab\ncd".toList).length → 0 ≤ c' →
      c' ≤ len ((split "ab\ncd".toList).getD l' []) →
      (lineStart (split "ab\ncd".toList) l' : Int) + c' =
        lineStart (split "ab\ncd".toList) 0 + 2 →
      l' = 0 ∧ c' = 2) ∧
    lineColOfOffset "ab\ncd".toList
        (lineStart (split "ab\ncd".toList) 0 + len ((split "ab\ncd".toList).getD 0 [])) =
      some (0, (len ((split "ab\ncd".toList).getD 0 []) : Int)) :=
  setCursorPosition_inverts_encoding "ab\ncd".toList 0 2 (by decide) (by decide) (by decide)



/-- C17: for every input path `p`, the `filePath` stored by `InitialModel`
ends with `".md"`; it is `p` when `p` ends with `".md"` and `p ++ ".md"`
otherwise, whatever the `".bookmark.md"` test says, and building the model
from the stored path stores the same path. -/
theorem filePath_has_md_extension (w : World) (p : List Char) :
    HasSuffix (InitialModel w p).filePath ".md".toList = true ∧
    (InitialModel w p).filePath =
      (if HasSuffix p ".md".toList = true then p else p ++ ".md".toList) ∧
    (InitialModel w (InitialModel w p).filePath).filePath = (InitialModel w p).filePath := by
  have hbook : ∀ q : List Char, HasSuffix q ".bookmark.md".toList = true →
      HasSuffix q ".md".toList = true := by
    intro q hq
    simp only [HasSuffix, List.isSuffixOf_iff_suffix] at hq ⊢
    exact List.IsSuffix.trans ⟨".bookmark".toList, rfl⟩ hq
  have hpath : ∀ q : List Char, (InitialModel w q).filePath =
      (if HasSuffix q ".md".toList = true then q else q ++ ".md".toList) := by
    intro q
    show (if (!HasSuffix q ".md".toList && !HasSuffix q ".bookmark.md".toList) = true
      then q ++ ".md".toList else q) = _
    have hb := hbook q
    cases h1 : HasSuffix q ".md".toList
    · cases h2 : HasSuffix q ".bookmark.md".toList
      · rfl
      · rw [h1] at hb
        exact absurd (hb h2) (by decide)
    · cases h2 : HasSuffix q ".bookmark.md".toList <;> rfl
  have hends : HasSuffix (InitialModel w p).filePath ".md".toList = true := by
    rw [hpath p]
    split_ifs with h
    · exact h
    · simp only [HasSuffix, List.isSuffixOf_iff_suffix]
      exact List.suffix_append _ _
  refine ⟨hends, hpath p, ?_⟩
  rw [hpath (InitialModel w p).filePath, if_pos hends]

/-- C19: for each marker shortcut, with `N` the number it subtracts, the
handler calls `setCursorPosition` with the start of the current line minus
`N`, whatever the cursor column; the position computed from that offset is
`(0, 0)` when the current line is the first, and has a line index below the
current line otherwise; it is not the position of the offset
`k + len text - N` inside the text just inserted at the cursor offset `k`. -/
theorem marker_aims_before_line (w : World) (m : model) (key : String) (text : List Char)
    (N : Int) (hn : m.isNormal) (hwf : m.textarea.wf) (hmk : (key, text, N) ∈ markers) :
    ∃ (l : Nat) (c : Int) (ta : textarea.Model),
      m.handle w (Msg.KeyMsg key) =
        some (({ m with textarea := m.textarea.InsertString text }, Cmd.nil),
          some { pos := (lineStart m.textarea.value m.textarea.row : Int) - N,
                 widget := ta }) ∧
      model.setCursorPosition w { m with textarea := m.textarea.InsertString text }
        ((lineStart m.textarea.value m.textarea.row : Int) - N) = some ta ∧
      model.getCursorPosition { m with textarea := m.textarea.InsertString text } =
        some (lineStart m.textarea.value m.textarea.row : Int) ∧
      lineColOfOffset (m.textarea.InsertString text).Value
        (lineStart m.textarea.value m.textarea.row - N) = some (l, c) ∧
      (m.textarea.row = 0 → l = 0 ∧ c = 0) ∧
      (0 < m.textarea.row → l < m.textarea.row) ∧
      lineColOfOffset (m.textarea.InsertString text).Value
        (cursorOffset m.textarea + len text - N) =
        some (m.textarea.row,
          len ((m.textarea.value.getD m.textarea.row []).take m.textarea.col) + len text - N) ∧
      lineColOfOffset (m.textarea.InsertString text).Value
          (lineStart m.textarea.value m.textarea.row - N) ≠
        lineColOfOffset (m.textarea.InsertString text).Value
          (cursorOffset m.textarea + len text - N) := by
  obtain ⟨hnl, hN1, hN2, hupd⟩ := markers_facts key text N hmk
  have hrow := hwf.2.2.1
  have hwf' := wf_InsertString m.textarea text hwf hnl
  have hsplit := split_Value _ hwf'
  have hins := InsertString_single m.textarea text hnl
  -- the widget after the insertion
  have hrow' : (m.textarea.InsertString text).row = m.textarea.row := by rw [hins]
  have hval' : (m.textarea.InsertString text).value = m.textarea.value.set m.textarea.row
      ((m.textarea.value.getD m.textarea.row []).take m.textarea.col ++ text ++
        (m.textarea.value.getD m.textarea.row []).drop m.textarea.col) := by rw [hins]
  have hlen' : (split (m.textarea.InsertString text).Value).length =
      m.textarea.value.length := by rw [hsplit, hval', List.length_set]
  have hstart' : ∀ i, i ≤ m.textarea.row →
      lineStart (split (m.textarea.InsertString text).Value) i =
        lineStart m.textarea.value i := by
    intro i hi
    rw [hsplit, hval', lineStart_set _ _ _ _ hi]
  have hline' : (split (m.textarea.InsertString text).Value).getD m.textarea.row [] =
      (m.textarea.value.getD m.textarea.row []).take m.textarea.col ++ text ++
        (m.textarea.value.getD m.textarea.row []).drop m.textarea.col := by
    have hr : m.textarea.row < (m.textarea.value.set m.textarea.row
        ((m.textarea.value.getD m.textarea.row []).take m.textarea.col ++ text ++
          (m.textarea.value.getD m.textarea.row []).drop m.textarea.col)).length := by
      simpa using hrow
    rw [hsplit, hval', List.getD_eq_getElem _ _ hr, List.getElem_set_self]
  -- the offset asked for
  have hget : model.getCursorPosition { m with textarea := m.textarea.InsertString text } =
      some (lineStart m.textarea.value m.textarea.row : Int) := by
    simp only [model.getCursorPosition, lineStartOffset_eq, textarea.Model.Line, hrow', hlen']
    have e : max 0 (min (m.textarea.row : Int) ((m.textarea.value.length : Int) - 1)) =
        m.textarea.row := by
      rw [min_eq_left (by omega), max_eq_right (by omega)]
    rw [e, Int.toNat_natCast, hstart' _ (le_refl _)]
  -- the position inside the inserted text
  have hinside : lineColOfOffset (m.textarea.InsertString text).Value
      (cursorOffset m.textarea + len text - N) =
      some (m.textarea.row,
        len ((m.textarea.value.getD m.textarea.row []).take m.textarea.col) + len text - N) := by
    have h := lineColOfOffset_lineStart_add (m.textarea.InsertString text).Value m.textarea.row
      (len ((m.textarea.value.getD m.textarea.row []).take m.textarea.col) + len text - N)
      (by rw [hlen']; exact hrow) (by omega)
      (by rw [hline', len_append, len_append]; push_cast; omega)
    rw [hstart' _ (le_refl _)] at h
    rw [← h]
    congr 1
    simp only [cursorOffset]
    push_cast
    ring
  -- the position computed from the offset asked for
  have hbefore : ∃ (l : Nat) (c : Int),
      lineColOfOffset (m.textarea.InsertString text).Value
        (lineStart m.textarea.value m.textarea.row - N) = some (l, c) ∧
      (m.textarea.row = 0 → l = 0 ∧ c = 0) ∧ (0 < m.textarea.row → l < m.textarea.row) := by
    by_cases hneg : (lineStart m.textarea.value m.textarea.row : Int) - N ≤ 0
    · exact ⟨0, 0, lineColOfOffset_neg _ _ hneg, fun _ => ⟨rfl, rfl⟩, fun h => h⟩
    · have hle := lineStart_le_len (m.textarea.InsertString text).Value m.textarea.row
        (by rw [hlen']; exact hrow)
      rw [hstart' _ (le_refl _)] at hle
      obtain ⟨l, hl, _, hc, ha, _⟩ := lineColOfOffset_inRange
        (m.textarea.InsertString text).Value
        (lineStart m.textarea.value m.textarea.row - N) (by omega) (by omega)
      have hlt : l < m.textarea.row := by
        by_contra hge
        have h1 := lineStart_mono (split (m.textarea.InsertString text).Value)
          (Nat.le_of_not_lt hge)
        rw [hstart' _ (le_refl _)] at h1
        omega
      refine ⟨l, _, hc, ?_, fun _ => hlt⟩
      intro h0
      omega
  obtain ⟨l, c, hlc, hfirst, hlater⟩ := hbefore
  obtain ⟨ta, hset, hcall⟩ := callSetCursorPosition_isSome w
    { m with textarea := m.textarea.InsertString text }
    ((lineStart m.textarea.value m.textarea.row : Int) - N)
  have hhandle : m.handle w (Msg.KeyMsg key) =
      some (({ m with textarea := m.textarea.InsertString text }, Cmd.nil),
        some { pos := (lineStart m.textarea.value m.textarea.row : Int) - N,
               widget := ta }) := by
    rw [hupd w m hn]
    unfold model.insertMarker
    simp only [hget, hcall]
  refine ⟨l, c, ta, hhandle, hset, hget, hlc, hfirst, hlater, hinside, ?_⟩
  rw [hlc, hinside]
  intro heq
  simp only [Option.some.injEq, Prod.mk.injEq] at heq
  rcases Nat.eq_zero_or_pos m.textarea.row with h0 | h0
  · have := (hfirst h0).2
    omega
  · have := hlater h0
    omega

/-- An instance: the bold shortcut on the second line of the buffer
`"ab\ncd"`, cursor at column 1. -/
theorem marker_aims_before_line_witness :
    ∃ (l : Nat) (c : Int) (ta : textarea.Model),
      (editing ["ab".toList, "cd".toList] 1 1).handle quietWorld (Msg.KeyMsg "ctrl+b") =
        some (({ editing ["ab".toList, "cd".toList] 1 1 with
            textarea := (editing ["ab".toList, "cd".toList] 1 1).textarea.InsertString
              "****".toList }, Cmd.nil),
          some { pos := (lineStart (editing ["ab".toList, "cd".toList] 1 1).textarea.value
                   (editing ["ab".toList, "cd".toList] 1 1).textarea.row : Int) - 2,
                 widget := ta }) ∧
      model.setCursorPosition quietWorld
        { editing ["ab".toList, "cd".toList] 1 1 with
          textarea := (editing ["ab".toList, "cd".toList] 1 1).textarea.InsertString
            "****".toList }
        ((lineStart (editing ["ab".toList, "cd".toList] 1 1).textarea.value
          (editing ["ab".toList, "cd".toList] 1 1).textarea.row : Int) - 2) = some ta ∧
      model.getCursorPosition { editing ["ab".toList, "cd".toList] 1 1 with
          textarea := (editing ["ab".toList, "cd".toList] 1 1).textarea.InsertString
            "****".toList } =
        some (lineStart (editing ["ab".toList, "cd".toList] 1 1).textarea.value
          (editing ["ab".toList, "cd".toList] 1 1).textarea.row : Int) ∧
      lineColOfOffset
        ((editing ["ab".toList, "cd".toList] 1 1).textarea.InsertString "****".toList).Value
        (lineStart (editing ["ab".toList, "cd".toList] 1 1).textarea.value
          (editing ["ab".toList, "cd".toList] 1 1).textarea.row - (2 : Int)) = some (l, c) ∧
      ((editing ["ab".toList, "cd".toList] 1 1).textarea.row = 0 → l = 0 ∧ c = 0) ∧
      (0 < (editing ["ab".toList, "cd".toList] 1 1).textarea.row →
        l < (editing ["ab".toList, "cd".toList] 1 1).textarea.row) ∧
      lineColOfOffset
        ((editing ["ab".toList, "cd".toList] 1 1).textarea.InsertString "****".toList).Value
        (cursorOffset (editing ["ab".toList, "cd".toList] 1 1).textarea +
          len "****".toList - (2 : Int)) =
        some ((editing ["ab".toList, "cd".toList] 1 1).textarea.row,
          len (((editing ["ab".toList, "cd".toList] 1 1).textarea.value.getD
            (editing ["ab".toList, "cd".toList] 1 1).textarea.row []).take
            (editing ["ab".toList, "cd".toList] 1 1).textarea.col) + len "****".toList - (2 : Int)) ∧
      lineColOfOffset
          ((editing ["ab".toList, "cd".toList] 1 1).textarea.InsertString "****".toList).Value
          (lineStart (editing ["ab".toList, "cd".toList] 1 1).textarea.value
            (editing ["ab".toList, "cd".toList] 1 1).textarea.row - (2 : Int)) ≠
        lineColOfOffset
          ((editing ["ab".toList, "cd".toList] 1 1).textarea.InsertString "****".toList).Value
          (cursorOffset (editing ["ab".toList, "cd".toList] 1 1).textarea +
            len "****".toList - (2 : Int)) :=
  marker_aims_before_line quietWorld (editing ["ab".toList, "cd".toList] 1 1) "ctrl+b"
    "****".toList 2 ⟨rfl, rfl, rfl⟩ ⟨by decide, by decide, by decide, by decide⟩ (by decide)

/-- C20: what `setCursorPosition` does to the cursor stays in the callee: for
every model in Search mode, whatever the query, the model `Update` returns on
enter has the cursor row and column (and the rows) of the input model; for
every marker shortcut in Normal mode, the model `Update` returns is the input
model with the text widget as `InsertString` left it. -/
theorem setCursorPosition_leaves_caller_cursor (w : World) (m : model) :
    (m.isSearch → ∃ (r : model) (c : Cmd), m.Update w (Msg.KeyMsg "enter") = some (r, c) ∧
      r.textarea.row = m.textarea.row ∧ r.textarea.col = m.textarea.col ∧
      r.textarea.value = m.textarea.value) ∧
    (m.isNormal → ∀ (key : String) (text : List Char) (N : Int), (key, text, N) ∈ markers →
      m.Update w (Msg.KeyMsg key) =
        some ({ m with textarea := m.textarea.InsertString text }, Cmd.nil)) := by
  constructor
  · intro hs
    obtain ⟨hp, hh, hsm⟩ := hs
    refine ⟨{ m with searchMode := false, textinput := m.textinput.Reset,
                     textarea := m.textarea.Focus }, Cmd.textareaBlink, ?_, rfl, rfl, rfl⟩
    simp only [Update_KeyMsg, hp, hh, hsm, Bool.or_self, Bool.false_eq_true, if_false,
      if_true, String.reduceEq]
    rw [searchCommit_eq]
    simp only [hp, hh]
  · intro hn key text N hmk
    show (m.handle w (Msg.KeyMsg key)).map Prod.fst = _
    rw [(markers_facts key text N hmk).2.2.2 w m hn]
    exact insertMarker_eq w m text N

/-- An instance: the query `"WORLD"` committed with the cursor at the end of
`"hello world\nbye"`, and the italic shortcut at column 1 of `"ab"`. -/
theorem setCursorPosition_leaves_caller_cursor_witness :
    (∃ (r : model) (c : Cmd),
      (searching ["hello world".toList, "bye".toList] 1 3 "WORLD".toList).Update quietWorld
        (Msg.KeyMsg "enter") = some (r, c) ∧
      r.textarea.row = 1 ∧ r.textarea.col = 3 ∧
      r.textarea.value = ["hello world".toList, "bye".toList]) ∧
    (editing ["ab".toList] 0 1).Update quietWorld (Msg.KeyMsg "ctrl+i") =
      some ({ editing ["ab".toList] 0 1 with
        textarea := (editing ["ab".toList] 0 1).textarea.InsertString "**".toList },
        Cmd.nil) :=
  ⟨(setCursorPosition_leaves_caller_cursor quietWorld
      (searching ["hello world".toList, "bye".toList] 1 3 "WORLD".toList)).1 ⟨rfl, rfl, rfl⟩,
    (setCursorPosition_leaves_caller_cursor quietWorld (editing ["ab".toList] 0 1)).2
      ⟨rfl, rfl, rfl⟩ "ctrl+i" "**".toList 1 (by decide)⟩


end Editor
